import Mathlib

/-!
Verification of the mini email client (`email_client.py`).

The development shallowly embeds the program's data model and operations:

* Python `dict`s (the account store `users`, the mailbox store `inboxes`,
  and the modelled file system) become association lists with
  first-occurrence lookup and update, which matches `dict` semantics on
  every state the program can reach (keys are unique by construction).
* Python string operations used by the program (`strip`, `lower`,
  `split`, `startswith`, substring `in`, `int(...)`, string `<`) are
  re-implemented over `List Char` with Python's semantics on ASCII data.
* `sorted` (a stable sort keyed on the `time` field) is embedded as
  `List.insertionSort`, which is also stable; a stable sort is determined
  extensionally by the key order, so the two agree on every input.
* For `send_email`, which distinguishes `email.copy()` from the original
  `email` object, a heap model makes Python object identity explicit:
  mailboxes hold message ids, and the heap maps ids to message values.
* Interactive input is passed as explicit arguments (the text a user
  would type, after the `.strip()` the program applies at the read site
  where noted); printing is dropped, and each operation returns a result
  tag in place of its report message.
-/

set_option maxRecDepth 10000

namespace MiniEmail

/-! ## Python string primitives -/

/-- Whitespace characters recognised by Python `str.strip` (ASCII range). -/
def isPySpace (c : Char) : Bool :=
  c = ' ' || c = '\t' || c = '\n' || c = '\x0d' || c = '\x0b' || c = '\x0c'

/-- Characters of a string with leading and trailing whitespace removed. -/
def stripChars (l : List Char) : List Char :=
  ((l.dropWhile isPySpace).reverse.dropWhile isPySpace).reverse

/-- Python `str.strip()` (whitespace on both ends). -/
def pyStrip (s : String) : String :=
  String.mk (stripChars s.data)

/-- Python `str.lower()` (ASCII letters; the program's data is ASCII). -/
def pyLower (s : String) : String :=
  String.mk (s.data.map Char.toLower)

/-- Decides whether the first list is a prefix of the second. -/
def prefixOf : List Char → List Char → Bool
  | [], _ => true
  | _ :: _, [] => false
  | a :: as, b :: bs => a = b && prefixOf as bs

/-- Python `needle in hay` on strings: substring containment. -/
def containsSub : List Char → List Char → Bool
  | needle, [] => needle.isEmpty
  | needle, h :: t => prefixOf needle (h :: t) || containsSub needle t

/-- Python `needle in hay` on strings. -/
def pyIn (needle hay : String) : Bool :=
  containsSub needle.data hay.data

/-- Python `s.startswith(pre)`. -/
def pyStartswith (s pre : String) : Bool :=
  prefixOf pre.data s.data

/-- Accumulator-style word splitter behind `pySplit`. -/
def splitWsAux : List Char → List Char → List String
  | acc, [] => if acc.isEmpty then [] else [String.mk acc.reverse]
  | acc, c :: cs =>
    if isPySpace c then
      if acc.isEmpty then splitWsAux [] cs
      else String.mk acc.reverse :: splitWsAux [] cs
    else splitWsAux (c :: acc) cs

/-- Python `s.split()` with no separator: split on whitespace runs,
dropping empty pieces. -/
def pySplit (s : String) : List String :=
  splitWsAux [] s.data

/-- Digit-string reader behind `pyToInt`: decimal digits, single
underscores allowed between digits (as Python `int` accepts). -/
def pyDigitsAux : Nat → List Char → Option Nat
  | acc, [] => some acc
  | acc, '_' :: c :: cs =>
    if c.isDigit then pyDigitsAux (acc * 10 + (c.toNat - 48)) cs else none
  | acc, c :: cs =>
    if c.isDigit then pyDigitsAux (acc * 10 + (c.toNat - 48)) cs else none

/-- Python `int(s)` on a text line: strips whitespace, accepts an
optional sign and decimal digits, and returns `none` where Python
raises `ValueError`. -/
def pyToInt (s : String) : Option Int :=
  match stripChars s.data with
  | '-' :: c :: cs =>
    if c.isDigit then (pyDigitsAux (c.toNat - 48) cs).map (fun n => -(n : Int)) else none
  | '+' :: c :: cs =>
    if c.isDigit then (pyDigitsAux (c.toNat - 48) cs).map (fun n => (n : Int)) else none
  | c :: cs =>
    if c.isDigit then (pyDigitsAux (c.toNat - 48) cs).map (fun n => (n : Int)) else none
  | [] => none

/-- Lexicographic comparison of character lists by code point, as Python
compares strings. -/
def lexLeChars : List Char → List Char → Bool
  | [], _ => true
  | _ :: _, [] => false
  | a :: as, b :: bs =>
    if a.toNat = b.toNat then lexLeChars as bs else decide (a.toNat < b.toNat)

/-- Python string comparison `a <= b` (code-point lexicographic). -/
def pyStrLe (a b : String) : Bool :=
  lexLeChars a.data b.data

theorem lexLeChars_total : ∀ x y : List Char, lexLeChars x y = true ∨ lexLeChars y x = true
  | [], _ => Or.inl rfl
  | _ :: _, [] => Or.inr rfl
  | a :: as, b :: bs => by
    by_cases hab : a.toNat = b.toNat
    · rcases lexLeChars_total as bs with h | h
      · exact Or.inl (by simp [lexLeChars, hab, h])
      · exact Or.inr (by simp [lexLeChars, hab.symm, h])
    · rcases Nat.lt_or_ge a.toNat b.toNat with hlt | hge
      · exact Or.inl (by simp [lexLeChars, hab, hlt])
      · have hba : b.toNat ≠ a.toNat := fun h => hab h.symm
        have hlt : b.toNat < a.toNat := lt_of_le_of_ne hge hba
        exact Or.inr (by simp [lexLeChars, hba, hlt])

theorem lexLeChars_trans :
    ∀ x y z : List Char, lexLeChars x y = true → lexLeChars y z = true →
      lexLeChars x z = true
  | [], _, _, _, _ => rfl
  | a :: as, [], z, hxy, _ => by simp [lexLeChars] at hxy
  | a :: as, b :: bs, [], _, hyz => by simp [lexLeChars] at hyz
  | a :: as, b :: bs, c :: cs, hxy, hyz => by
    by_cases hab : a.toNat = b.toNat <;> by_cases hbc : b.toNat = c.toNat
    · have hac : a.toNat = c.toNat := hab.trans hbc
      simp only [lexLeChars, hab, if_pos] at hxy
      simp only [lexLeChars, hbc, if_pos] at hyz
      simp [lexLeChars, hac, lexLeChars_trans as bs cs hxy hyz]
    · simp only [lexLeChars, if_neg hbc] at hyz
      have hlt : b.toNat < c.toNat := by simpa using hyz
      have hac : a.toNat < c.toNat := hab ▸ hlt
      simp [lexLeChars, Nat.ne_of_lt hac, hac]
    · simp only [lexLeChars, if_neg hab] at hxy
      have hlt : a.toNat < b.toNat := by simpa using hxy
      have hac : a.toNat < c.toNat := hbc ▸ hlt
      simp [lexLeChars, Nat.ne_of_lt hac, hac]
    · simp only [lexLeChars, if_neg hab] at hxy
      simp only [lexLeChars, if_neg hbc] at hyz
      have h1 : a.toNat < b.toNat := by simpa using hxy
      have h2 : b.toNat < c.toNat := by simpa using hyz
      have hac : a.toNat < c.toNat := h1.trans h2
      simp [lexLeChars, Nat.ne_of_lt hac, hac]

theorem containsSub_nil_left : ∀ l : List Char, containsSub [] l = true
  | [] => rfl
  | _ :: _ => by simp [containsSub, prefixOf]

/-! ## Association lists as Python dicts

Lookup and update act on the first binding of a key, which coincides with
`dict` behaviour on all reachable stores (their keys are unique). -/

/-- Value bound to key `k`, if any (Python `m[k]` / `k in m`). -/
def lookupKey : List (String × β) → String → Option β
  | [], _ => none
  | p :: ps, k => if p.1 = k then some p.2 else lookupKey ps k

/-- Python `k in m`. -/
def containsKey (m : List (String × β)) (k : String) : Bool :=
  (lookupKey m k).isSome

/-- Lookup with a default value. -/
def getKeyD (m : List (String × β)) (k : String) (d : β) : β :=
  (lookupKey m k).getD d

/-- Python `m[k] = v`: replace the binding if the key is present,
otherwise append a new binding (dicts preserve insertion order). -/
def setKey : List (String × β) → String → β → List (String × β)
  | [], k, v => [(k, v)]
  | p :: ps, k, v => if p.1 = k then (p.1, v) :: ps else p :: setKey ps k v

/-- In-place mutation of the value stored at `k` (a no-op if absent). -/
def updateKey : List (String × β) → String → (β → β) → List (String × β)
  | [], _, _ => []
  | p :: ps, k, f => if p.1 = k then (p.1, f p.2) :: ps else p :: updateKey ps k f

/-- Insert an initial value for `k` when the key is absent. -/
def ensureKey (m : List (String × β)) (k : String) (d : β) : List (String × β) :=
  if containsKey m k then m else m ++ [(k, d)]

theorem lookupKey_updateKey_self :
    ∀ (m : List (String × β)) (k : String) (f : β → β),
      lookupKey (updateKey m k f) k = (lookupKey m k).map f
  | [], _, _ => rfl
  | p :: ps, k, f => by
    by_cases h : p.1 = k
    · simp [updateKey, lookupKey, h]
    · simp [updateKey, lookupKey, h, lookupKey_updateKey_self ps k f]

theorem lookupKey_updateKey_ne {k q : String} (m : List (String × β)) (f : β → β)
    (h : q ≠ k) : lookupKey (updateKey m k f) q = lookupKey m q := by
  induction m with
  | nil => rfl
  | cons p ps ih =>
    have hkq : ¬k = q := fun hh => h hh.symm
    by_cases hp : p.1 = k
    · have hq : ¬p.1 = q := fun hh => h (hh ▸ hp)
      simp [updateKey, lookupKey, hp, hq, hkq]
    · by_cases hq : p.1 = q <;> simp [updateKey, lookupKey, hp, hq, hkq, h, ih]

theorem lookupKey_append_right {k : String} (m : List (String × β)) (q : List (String × β))
    (h : lookupKey m k = none) : lookupKey (m ++ q) k = lookupKey q k := by
  induction m with
  | nil => rfl
  | cons p ps ih =>
    by_cases hp : p.1 = k
    · simp [lookupKey, hp] at h
    · simp only [lookupKey, hp, if_neg] at h
      simp [lookupKey, hp, ih h]

theorem lookupKey_append_left {k : String} {m : List (String × β)} (q : List (String × β))
    (h : (lookupKey m k).isSome) : lookupKey (m ++ q) k = lookupKey m k := by
  induction m with
  | nil => simp [lookupKey] at h
  | cons p ps ih =>
    by_cases hp : p.1 = k
    · simp [lookupKey, hp]
    · simp only [lookupKey, hp, if_neg] at h ⊢
      exact ih h

theorem lookupKey_ensureKey_ne {k q : String} (m : List (String × β)) (d : β)
    (h : q ≠ k) : lookupKey (ensureKey m k d) q = lookupKey m q := by
  unfold ensureKey
  by_cases hc : containsKey m k
  · simp [hc]
  · simp only [hc, Bool.false_eq_true, if_neg, if_false]
    have hkq : ¬k = q := fun hh => h hh.symm
    cases hs : lookupKey m q with
    | none =>
      rw [lookupKey_append_right m _ hs]
      simp [lookupKey, hkq]
    | some v => rw [lookupKey_append_left _ (by simp [hs]), hs]

theorem lookupKey_ensureKey_self (m : List (String × β)) (k : String) (d : β) :
    lookupKey (ensureKey m k d) k = some ((lookupKey m k).getD d) := by
  unfold ensureKey
  by_cases hc : containsKey m k
  · rcases Option.isSome_iff_exists.mp hc with ⟨v, hv⟩
    simp [hc, hv]
  · have hnone : lookupKey m k = none :=
      Option.not_isSome_iff_eq_none.mp (by simpa [containsKey] using hc)
    simp only [hc, Bool.false_eq_true, if_neg, if_false]
    rw [lookupKey_append_right m _ hnone, hnone]
    simp [lookupKey]

theorem getKeyD_ensureKey (m : List (String × β)) (k q : String) (d : β) :
    getKeyD (ensureKey m k d) q d = getKeyD m q d := by
  by_cases hq : q = k
  · subst hq
    unfold getKeyD
    rw [lookupKey_ensureKey_self]
    cases lookupKey m q <;> simp
  · unfold getKeyD
    rw [lookupKey_ensureKey_ne m d hq]

theorem containsKey_ensureKey_self (m : List (String × β)) (k : String) (d : β) :
    containsKey (ensureKey m k d) k = true := by
  unfold containsKey
  rw [lookupKey_ensureKey_self]
  rfl

theorem lookupKey_setKey_self : ∀ (m : List (String × β)) (k : String) (v : β),
    lookupKey (setKey m k v) k = some v
  | [], k, v => by simp [setKey, lookupKey]
  | p :: ps, k, v => by
    by_cases hp : p.1 = k
    · simp [setKey, lookupKey, hp]
    · simp [setKey, lookupKey, hp, lookupKey_setKey_self ps k v]

theorem ensureKey_of_contains (m : List (String × β)) (k : String) (d : β)
    (h : containsKey m k = true) : ensureKey m k d = m := by
  simp [ensureKey, h]

theorem setKey_of_not_contains :
    ∀ (m : List (String × β)) (k : String) (v : β), containsKey m k = false →
      setKey m k v = m ++ [(k, v)]
  | [], _, _, _ => rfl
  | p :: ps, k, v, h => by
    by_cases hp : p.1 = k
    · simp [containsKey, lookupKey, hp] at h
    · simp only [containsKey, lookupKey, hp, if_neg] at h
      simp [setKey, hp, setKey_of_not_contains ps k v h]

/-! ## Data model -/

/-- A message as built by `compose_email`: the dict with keys `from`,
`to`, `subject`, `body`, `time`, `read`. -/
structure Email where
  from_ : String
  to_ : List String
  subject : String
  body : String
  time : String
  read : Bool
  deriving DecidableEq

instance : Inhabited Email := ⟨⟨"", [], "", "", "", false⟩⟩

/-- One user's mailbox: the dict `{"inbox": [], "drafts": [], "sent": []}`. -/
structure Mailbox where
  inbox : List Email
  drafts : List Email
  sent : List Email
  deriving DecidableEq

def emptyMailbox : Mailbox := ⟨[], [], []⟩

/-- The mailbox store `inboxes`, mapping usernames to mailboxes. -/
abbrev Inboxes := List (String × Mailbox)

/-- Embedding of `ensure_user_box`. -/
def ensure_user_box (username : String) (inboxes : Inboxes) : Inboxes :=
  ensureKey inboxes username emptyMailbox

/-- The mailbox of `username` (empty when absent, matching the defensive
`ensure_user_box` calls before every access). -/
def userBox (inboxes : Inboxes) (username : String) : Mailbox :=
  getKeyD inboxes username emptyMailbox

/-- Marks one message read (`msg['read'] = True`). -/
def markRead (m : Email) : Email := { m with read := true }

/-- Sort key relation used by `view_inbox`: ascending `time` under
Python string comparison. -/
def timeRel (a b : Email) : Prop := pyStrLe a.time b.time = true

instance : DecidableRel timeRel :=
  fun a b => instDecidableEqBool (pyStrLe a.time b.time) true

instance : IsTotal Email timeRel :=
  ⟨fun a b => lexLeChars_total a.time.data b.time.data⟩

instance : IsTrans Email timeRel :=
  ⟨fun a b c => lexLeChars_trans a.time.data b.time.data c.time.data⟩

/-! ## Message operations (value model) -/

/-- Embedding of `view_inbox`. Returns the displayed (time-sorted) list
and the updated store; displaying marks every inbox message read.
Python's `sorted` is stable, as is `List.insertionSort`, and a stable
sort is determined extensionally by its key order, so they agree. -/
def view_inbox (username : String) (inboxes : Inboxes) : List Email × Inboxes :=
  let inboxes1 := ensure_user_box username inboxes
  let inbox := (userBox inboxes1 username).inbox
  if inbox.isEmpty then ([], inboxes1)
  else
    (inbox.insertionSort timeRel,
     updateKey inboxes1 username fun b => { b with inbox := b.inbox.map markRead })

/-- Python `list.pop(i)`: negative indices count from the end; an index
outside `[-len, len)` raises `IndexError`, modelled as `none`. -/
def pyPop [Inhabited α] (l : List α) (i : Int) : Option (α × List α) :=
  let j : Int := if i < 0 then i + l.length else i
  if 0 ≤ j ∧ j < (l.length : Int) then
    some (l.getD j.toNat default, l.eraseIdx j.toNat)
  else none

inductive DraftsResult
  | noDrafts | sentDraft | deletedDraft | invalidIndex | cancelled
  deriving DecidableEq

/-- Delivery loop of the draft-send branch (value model): ensure each
recipient's box and append a copy of the draft to its inbox. -/
def deliverDraft (draft : Email) : List String → Inboxes → Inboxes
  | [], acc => acc
  | r :: rs, acc =>
    deliverDraft draft rs
      (updateKey (ensure_user_box r acc) r fun b => { b with inbox := b.inbox ++ [draft] })

/-- Embedding of `view_drafts`: display is dropped; `line` is the raw
menu input (the code reads it with `.strip()`). `invalidIndex` stands
for the `"Invalid index."` report of the two `except` handlers. -/
def view_drafts (username : String) (line : String) (inboxes : Inboxes) :
    DraftsResult × Inboxes :=
  let choice := pyStrip line
  let inboxes1 := ensure_user_box username inboxes
  let drafts := (userBox inboxes1 username).drafts
  if drafts.isEmpty then (.noDrafts, inboxes1)
  else if pyStartswith choice "send" then
    match (pySplit choice).get? 1 with
    | none => (.invalidIndex, inboxes1)
    | some tok =>
      match pyToInt tok with
      | none => (.invalidIndex, inboxes1)
      | some index =>
        match pyPop drafts index with
        | none => (.invalidIndex, inboxes1)
        | some (draft, rest) =>
          let inboxes2 := updateKey inboxes1 username fun b => { b with drafts := rest }
          let inboxes3 := deliverDraft draft draft.to_ inboxes2
          (.sentDraft, updateKey inboxes3 username fun b => { b with sent := b.sent ++ [draft] })
  else if pyStartswith choice "del" then
    match (pySplit choice).get? 1 with
    | none => (.invalidIndex, inboxes1)
    | some tok =>
      match pyToInt tok with
      | none => (.invalidIndex, inboxes1)
      | some index =>
        match pyPop drafts index with
        | none => (.invalidIndex, inboxes1)
        | some (_, rest) =>
          (.deletedDraft, updateKey inboxes1 username fun b => { b with drafts := rest })
  else (.cancelled, inboxes1)

inductive DeleteResult
  | noEmails | deleted (sender : String) | invalidIndex | invalidInput
  deriving DecidableEq

/-- Embedding of `delete_email`; `line` is the raw index input
(`int(...)` performs its own whitespace stripping). The function first
displays the inbox via `view_inbox`, which marks every message read. -/
def delete_email (username : String) (line : String) (inboxes : Inboxes) :
    DeleteResult × Inboxes :=
  let inboxes1 := ensure_user_box username inboxes
  let inbox := (userBox inboxes1 username).inbox
  if inbox.isEmpty then (.noEmails, inboxes1)
  else
    let inboxes2 := (view_inbox username inboxes1).2
    let inbox2 := (userBox inboxes2 username).inbox
    match pyToInt line with
    | none => (.invalidInput, inboxes2)
    | some index =>
      if 0 ≤ index ∧ index < (inbox2.length : Int) then
        (.deleted (inbox2.getD index.toNat default).from_,
         updateKey inboxes2 username fun b => { b with inbox := b.inbox.eraseIdx index.toNat })
      else (.invalidIndex, inboxes2)

/-- Match predicate of `search_emails`: case-insensitive substring of
subject or body. -/
def matchesKeyword (keyword : String) (msg : Email) : Bool :=
  pyIn keyword (pyLower msg.subject) || pyIn keyword (pyLower msg.body)

/-- Embedding of `search_emails`; `line` is the keyword input (the code
reads it with `.strip().lower()`). Returns the `(original index,
message)` result pairs and the store after the defensive
`ensure_user_box`. -/
def search_emails (username : String) (line : String) (inboxes : Inboxes) :
    List (Nat × Email) × Inboxes :=
  let inboxes1 := ensure_user_box username inboxes
  let keyword := pyLower (pyStrip line)
  (((userBox inboxes1 username).inbox).enum.filter fun p => matchesKeyword keyword p.2,
   inboxes1)

/-! ## Account operations -/

/-- Embedding of `login`: `users` is the account store, `tries` the
failed attempts so far, `attempts` the username/password lines the user
would type (each read with `.strip()`). A bad username consumes an
attempt without reading a password, so its password entry is unused.
Exhausted input is modelled as the "no identity" result, which the code
reaches after the third failure. -/
def login (users : List (String × String)) : Nat → List (String × String) → Option String
  | _, [] => none
  | tries, (u, p) :: rest =>
    if 3 ≤ tries then none
    else
      match lookupKey users (pyStrip u) with
      | none => login users (tries + 1) rest
      | some pw => if pw = pyStrip p then some (pyStrip u) else login users (tries + 1) rest

/-- Embedding of `register_user`: `inputs` are the successive username
lines the user would type (each read with `.strip()`); the loop
re-prompts while the requested name exists. Returns the updated store,
or `none` if the input runs out while re-prompting. -/
def register_user (users : List (String × String)) :
    List String → String → Option (List (String × String))
  | [], _ => none
  | u :: rest, password =>
    let username := pyStrip u
    if containsKey users username then register_user users rest password
    else some (setKey users username password)

/-! ## Heap model for `send_email`

Python dicts are objects: `email.copy()` creates a new object while
`inboxes[sender]["sent"].append(email)` stores a reference to the very
object built by `compose_email`. To reason about aliasing, this model
gives every message object an id: the heap lists message values indexed
by id, and mailboxes store ids. -/

structure RefBox where
  inbox : List Nat
  drafts : List Nat
  sent : List Nat
  deriving DecidableEq

def emptyRefBox : RefBox := ⟨[], [], []⟩

structure HeapStore where
  heap : List Email
  boxes : List (String × RefBox)
  deriving DecidableEq

/-- Message value stored at id `i`. -/
def heapVal (s : HeapStore) (i : Nat) : Email :=
  s.heap.getD i default

/-- Mailbox of `username` in the heap model. -/
def refBox (s : HeapStore) (username : String) : RefBox :=
  getKeyD s.boxes username emptyRefBox

inductive SendResult
  | sentOk | draftedOk | invalidAction
  deriving DecidableEq

/-- Delivery loop of the `"send"` branch of `send_email`: for each
recipient, ensure a mailbox and append a fresh copy of the email value
(a new heap cell, `email.copy()`) to the recipient's inbox. `v` is the
value of the email object, which nothing mutates during the loop. -/
def deliverLoop (v : Email) : List String → List Email × List (String × RefBox) →
    List Email × List (String × RefBox)
  | [], acc => acc
  | r :: rs, acc =>
    deliverLoop v rs
      (acc.1 ++ [v],
       updateKey (ensureKey acc.2 r emptyRefBox) r
         fun b => { b with inbox := b.inbox ++ [acc.1.length] })

/-- Embedding of `send_email` over the heap model. `emailId` is the id
of the email object built by `compose_email` (which allocated it), and
`action` is the already-lowercased action string. -/
def send_email (sender : String) (emailId : Nat) (recipients : List String)
    (action : String) (s : HeapStore) : SendResult × HeapStore :=
  let boxes0 := ensureKey s.boxes sender emptyRefBox
  if action = "send" then
    let hb := deliverLoop (heapVal s emailId) recipients (s.heap, boxes0)
    (.sentOk,
     ⟨hb.1, updateKey hb.2 sender fun b => { b with sent := b.sent ++ [emailId] }⟩)
  else if action = "draft" then
    (.draftedOk,
     ⟨s.heap, updateKey boxes0 sender fun b => { b with drafts := b.drafts ++ [emailId] }⟩)
  else (.invalidAction, ⟨s.heap, boxes0⟩)

/-- Setting the read flag on the message object with id `i`
(`msg['read'] = True`), leaving every other object untouched. -/
def setHeapRead : List Email → Nat → List Email
  | [], _ => []
  | e :: es, 0 => markRead e :: es
  | e :: es, n + 1 => e :: setHeapRead es n

def set_read (s : HeapStore) (i : Nat) : HeapStore :=
  ⟨setHeapRead s.heap i, s.boxes⟩

/-! ## Store lemmas -/

theorem userBox_ensure (u q : String) (bs : Inboxes) :
    userBox (ensure_user_box u bs) q = userBox bs q :=
  getKeyD_ensureKey bs u q emptyMailbox

theorem userBox_of_not_contains {bs : Inboxes} {u : String}
    (h : containsKey bs u = false) : userBox bs u = emptyMailbox := by
  unfold userBox getKeyD
  cases hl : lookupKey bs u with
  | none => rfl
  | some v => simp [containsKey, hl] at h

theorem contains_of_userBox_ne {bs : Inboxes} {u : String}
    (h : userBox bs u ≠ emptyMailbox) : containsKey bs u = true := by
  by_cases hc : containsKey bs u
  · exact hc
  · exact absurd (userBox_of_not_contains (by simpa using hc)) h

theorem userBox_update_self (u : String) (bs : Inboxes) (f : Mailbox → Mailbox)
    (hc : containsKey bs u = true) :
    userBox (updateKey bs u f) u = f (userBox bs u) := by
  unfold userBox getKeyD
  rw [lookupKey_updateKey_self]
  rcases Option.isSome_iff_exists.mp hc with ⟨v, hv⟩
  simp [hv]

theorem updateKey_updateKey : ∀ (m : List (String × β)) (k : String) (f g : β → β),
    updateKey (updateKey m k f) k g = updateKey m k (fun x => g (f x))
  | [], _, _, _ => rfl
  | p :: ps, k, f, g => by
    by_cases hp : p.1 = k
    · simp [updateKey, hp]
    · simp [updateKey, hp, updateKey_updateKey ps k f g]

theorem eraseIdx_map (f : α → β) : ∀ (l : List α) (n : Nat),
    (l.map f).eraseIdx n = (l.eraseIdx n).map f
  | [], _ => rfl
  | _ :: _, 0 => rfl
  | a :: l, n + 1 => by simp [List.eraseIdx, eraseIdx_map f l n]

theorem getD_map_lt (f : α → β) (d : α) (d2 : β) (l : List α) (n : Nat)
    (h : n < l.length) : (l.map f).getD n d2 = f (l.getD n d) := by
  rw [List.getD_eq_getElem?_getD, List.getD_eq_getElem?_getD, List.getElem?_map,
    List.getElem?_eq_getElem h]
  rfl

/-! ## C2: `view_inbox` sorts by time and marks everything read -/

/-- C2. For every user and store, `view_inbox` returns the inbox messages
in non-decreasing `time` order — as a stable sort: it is a permutation of
the inbox, and every time-sorted sublist of the stored inbox survives as
a sublist of the output — and afterwards the user's stored inbox consists
of exactly the same messages, in the same order, with every `read` flag
set to `true` and every other field unchanged. -/
theorem view_inbox_sorted_and_marks_read (u : String) (bs : Inboxes) :
    ((view_inbox u bs).1).Pairwise timeRel ∧
    ((view_inbox u bs).1).Perm (userBox bs u).inbox ∧
    (∀ c : List Email, c.Pairwise timeRel → c.Sublist (userBox bs u).inbox →
       c.Sublist (view_inbox u bs).1) ∧
    (userBox ((view_inbox u bs).2) u).inbox = ((userBox bs u).inbox).map markRead := by
  simp only [view_inbox, userBox_ensure]
  by_cases h : ((userBox bs u).inbox).isEmpty
  · have hnil : (userBox bs u).inbox = [] := by simpa [List.isEmpty_iff] using h
    refine ⟨?_, ?_, ?_, ?_⟩ <;> simp [hnil, userBox_ensure]
  · have hmem : containsKey bs u = true := by
      refine contains_of_userBox_ne fun he => ?_
      rw [he] at h
      simp [emptyMailbox] at h
    rw [show ensure_user_box u bs = bs from ensureKey_of_contains bs u emptyMailbox hmem]
    simp only [h, Bool.false_eq_true, if_false]
    refine ⟨List.sorted_insertionSort timeRel _, List.perm_insertionSort timeRel _,
      fun c hs hsub => List.sublist_insertionSort hs hsub, ?_⟩
    rw [userBox_update_self u bs _ hmem]

/-- C2 witness: a concrete two-message inbox in descending time order is
returned sorted, and the stored inbox is read-marked in place. -/
theorem view_inbox_sorted_and_marks_read_witness :
    ((view_inbox "u"
        [("u", ⟨[⟨"a", [], "s1", "b1", "2024-01-02T00:00:00", false⟩,
                 ⟨"b", [], "s2", "b2", "2024-01-01T00:00:00", false⟩], [], []⟩)]).1).Pairwise
      timeRel ∧
    ([⟨"b", [], "s2", "b2", "2024-01-01T00:00:00", false⟩] : List Email).Sublist
      ((view_inbox "u"
        [("u", ⟨[⟨"a", [], "s1", "b1", "2024-01-02T00:00:00", false⟩,
                 ⟨"b", [], "s2", "b2", "2024-01-01T00:00:00", false⟩], [], []⟩)]).1) :=
  ⟨(view_inbox_sorted_and_marks_read "u" _).1,
   (view_inbox_sorted_and_marks_read "u" _).2.2.1 _ (by decide) (by decide)⟩

/-! ## C3: `login` returns the first matching attempt within three tries -/

theorem login_eq_find (users : List (String × String)) :
    ∀ (attempts : List (String × String)) (tries : Nat), tries ≤ 3 →
      login users tries attempts =
        Option.map (fun a => pyStrip a.1)
          ((attempts.take (3 - tries)).find? fun a =>
            decide (lookupKey users (pyStrip a.1) = some (pyStrip a.2)))
  | [], tries, _ => by simp [login]
  | (u, p) :: rest, tries, htr => by
    by_cases h3 : 3 ≤ tries
    · have : tries = 3 := le_antisymm htr h3
      subst this
      simp [login]
    · have hlt : tries < 3 := lt_of_not_ge h3
      have htake : 3 - tries = (3 - (tries + 1)) + 1 := by omega
      rw [htake]
      simp only [login, h3, if_neg, if_false, List.take_succ_cons, List.find?]
      cases hl : lookupKey users (pyStrip u) with
      | none =>
        rw [login_eq_find users rest (tries + 1) (by omega)]
        simp
      | some pw =>
        by_cases hpw : pw = pyStrip p
        · simp [hpw]
        · rw [login_eq_find users rest (tries + 1) (by omega)]
          simp [hpw]

/-- C3. Started with zero failed tries, `login` returns the (stripped)
username of the first of the at most three processed attempts whose
username is a key of the account store and whose password equals the
stored one; if no such attempt is among the first three, it returns
`none` (the "no identity" result). A non-existent username and a wrong
password each consume one element of the attempt sequence. -/
theorem login_first_match (users attempts : List (String × String)) :
    login users 0 attempts =
      Option.map (fun a => pyStrip a.1)
        ((attempts.take 3).find? fun a =>
          decide (lookupKey users (pyStrip a.1) = some (pyStrip a.2))) :=
  login_eq_find users attempts 0 (by omega)

/-! ## C7: `register_user` rejects duplicates but accepts the empty name -/

theorem lookupKey_eq_none_iff (m : List (String × β)) (k : String) :
    lookupKey m k = none ↔ k ∉ m.map Prod.fst := by
  induction m with
  | nil => simp [lookupKey]
  | cons p ps ih =>
    by_cases hp : p.1 = k
    · simp [lookupKey, hp]
    · simp only [lookupKey, hp, if_neg, if_false, List.map_cons, List.mem_cons, ih]
      constructor
      · rintro h (hk | hk)
        · exact hp hk.symm
        · exact h hk
      · intro h hk
        exact h (Or.inr hk)

/-- C7 counterexample. The registration loop only re-prompts on an
existing name: the empty username (an empty input line) passes the check
against the empty store and is inserted, so the code does not reject
empty usernames and the store can acquire an empty key. -/
theorem register_user_accepts_empty_username :
    register_user [] [""] "pw" = some [("", "pw")] := by decide

/-- C7 as amended. Registration re-prompts while the (stripped) requested
name is already a key, leaving the store untouched, and inserts the first
fresh name — empty or not — at the end of the store; when the stored
usernames are distinct they remain so afterwards, but non-emptiness is
not enforced. -/
theorem register_user_spec (users : List (String × String)) (inputs : List String)
    (pw : String) (hnd : (users.map Prod.fst).Nodup) :
    register_user users inputs pw =
      ((inputs.map pyStrip).find? fun n => !containsKey users n).map
        (fun n => users ++ [(n, pw)]) ∧
    ∀ users2, register_user users inputs pw = some users2 →
      (users2.map Prod.fst).Nodup := by
  have key : register_user users inputs pw =
      ((inputs.map pyStrip).find? fun n => !containsKey users n).map
        (fun n => users ++ [(n, pw)]) := by
    induction inputs with
    | nil => rfl
    | cons u rest ih =>
      by_cases hc : containsKey users (pyStrip u)
      · simp [register_user, hc, ih]
      · have hc2 : containsKey users (pyStrip u) = false := by simpa using hc
        simp [register_user, hc2, setKey_of_not_contains users (pyStrip u) pw hc2]
  refine ⟨key, fun users2 h2 => ?_⟩
  rw [key] at h2
  rcases Option.map_eq_some'.mp h2 with ⟨n, hfind, heq⟩
  have hfresh : containsKey users n = false := by
    have := List.find?_some hfind
    simpa using this
  have hnotmem : n ∉ users.map Prod.fst := by
    rw [← lookupKey_eq_none_iff]
    cases hl : lookupKey users n with
    | none => rfl
    | some v => simp [containsKey, hl] at hfresh
  subst heq
  rw [List.map_append, List.nodup_append]
  refine ⟨hnd, by simp, ?_⟩
  intro a ha hb
  simp only [List.map_cons, List.map_nil, List.mem_singleton] at hb
  subst hb
  exact hnotmem ha

/-- C7 witness: with store `{a ↦ x}`, the duplicate request `a` re-prompts
and the fresh request `b` is inserted; the resulting keys are distinct. -/
theorem register_user_spec_witness :
    register_user [("a", "x")] ["a", "b"] "y" = some [("a", "x"), ("b", "y")] ∧
    ([("a", "x"), ("b", "y")].map Prod.fst).Nodup := by
  constructor
  · rw [(register_user_spec [("a", "x")] ["a", "b"] "y" (by decide)).1]
    decide
  · exact (register_user_spec [("a", "x")] ["a", "b"] "y" (by decide)).2
      [("a", "x"), ("b", "y")] (by decide)

/-! ## C8: `search_emails` filters by case-insensitive substring -/

/-- C8. When the user has a mailbox, `search_emails` leaves the store
untouched and returns exactly the `(original index, message)` pairs whose
lower-cased subject or body contains the lower-cased stripped keyword, in
storage order (a sublist of the enumerated inbox); the empty keyword
returns every message with its original index. -/
theorem search_emails_spec (u line : String) (bs : Inboxes)
    (hc : containsKey bs u = true) :
    (search_emails u line bs).2 = bs ∧
    (∀ (i : Nat) (m : Email), (i, m) ∈ (search_emails u line bs).1 ↔
       ((userBox bs u).inbox[i]? = some m ∧
        matchesKeyword (pyLower (pyStrip line)) m = true)) ∧
    ((search_emails u line bs).1).Sublist ((userBox bs u).inbox.enum) ∧
    (pyStrip line = "" → (search_emails u line bs).1 = (userBox bs u).inbox.enum) := by
  unfold search_emails ensure_user_box
  rw [ensureKey_of_contains bs u emptyMailbox hc]
  refine ⟨rfl, ?_, List.filter_sublist _, ?_⟩
  · intro i m
    rw [List.mem_filter, List.mk_mem_enum_iff_getElem?]
  · intro hempty
    rw [List.filter_eq_self]
    intro a _
    have : pyLower (pyStrip line) = "" := by rw [hempty]; rfl
    rw [this]
    unfold matchesKeyword pyIn
    have h1 := containsSub_nil_left (pyLower a.2.subject).data
    rw [show ("" : String).data = [] from rfl, h1]
    rfl

/-- C8 witness: a keyword matching only the second message returns just
that pair, an empty keyword returns both pairs, and the store is
unchanged. -/
theorem search_emails_spec_witness :
    (search_emails "u" "URGENT"
       [("u", ⟨[⟨"a", [], "hello", "hi there", "t1", false⟩,
                ⟨"b", [], "Urgent: meet", "now", "t2", false⟩], [], []⟩)]).2 =
      [("u", ⟨[⟨"a", [], "hello", "hi there", "t1", false⟩,
               ⟨"b", [], "Urgent: meet", "now", "t2", false⟩], [], []⟩)] ∧
    (search_emails "u" ""
       [("u", ⟨[⟨"a", [], "hello", "hi there", "t1", false⟩,
                ⟨"b", [], "Urgent: meet", "now", "t2", false⟩], [], []⟩)]).1 =
      [(0, ⟨"a", [], "hello", "hi there", "t1", false⟩),
       (1, ⟨"b", [], "Urgent: meet", "now", "t2", false⟩)] := by
  constructor
  · exact (search_emails_spec "u" "URGENT" _ (by decide)).1
  · rw [(search_emails_spec "u" "" _ (by decide)).2.2.2 (by decide)]
    decide

/-! ## C5: `delete_email` -/

theorem view_inbox_snd (u : String) (bs : Inboxes) (hc : containsKey bs u = true)
    (hne : (userBox bs u).inbox ≠ []) :
    (view_inbox u bs).2 = updateKey bs u fun b => { b with inbox := b.inbox.map markRead } := by
  have hb : ((userBox bs u).inbox).isEmpty = false := by
    cases hdd : (userBox bs u).inbox with
    | nil => exact absurd hdd hne
    | cons a l => rfl
  simp only [view_inbox, userBox_ensure,
    show ensure_user_box u bs = bs from ensureKey_of_contains bs u emptyMailbox hc, hb,
    Bool.false_eq_true, if_false]

/-- C5 counterexample. With a one-message inbox whose message is unread,
requesting deletion at the out-of-range index 5 reports an invalid index
but does mutate the store: `delete_email` displays the inbox first, and
the display marks the message read. -/
theorem delete_email_invalid_index_mutates_read :
    delete_email "u" "5" [("u", ⟨[⟨"bob", [], "s", "b", "t", false⟩], [], []⟩)] =
      (.invalidIndex, [("u", ⟨[⟨"bob", [], "s", "b", "t", true⟩], [], []⟩)]) := by decide

/-- C5 as amended. On a non-empty inbox, `delete_email` first displays
the inbox, which sets every message's `read` flag; afterwards a
non-numeric input reports invalid input, an index outside `[0, n)`
reports an invalid index — in both cases with no further mutation beyond
that read-marking — and an index in range removes exactly the message at
that index from the read-marked inbox and reports that message's
sender. -/
theorem delete_email_cases (u line : String) (bs : Inboxes)
    (hne : (userBox bs u).inbox ≠ []) :
    (pyToInt line = none →
       delete_email u line bs =
         (.invalidInput, updateKey bs u fun b => { b with inbox := b.inbox.map markRead })) ∧
    (∀ i : Int, pyToInt line = some i →
       ¬(0 ≤ i ∧ i < (((userBox bs u).inbox).length : Int)) →
       delete_email u line bs =
         (.invalidIndex, updateKey bs u fun b => { b with inbox := b.inbox.map markRead })) ∧
    (∀ i : Int, pyToInt line = some i →
       0 ≤ i → i < (((userBox bs u).inbox).length : Int) →
       delete_email u line bs =
         (.deleted (((userBox bs u).inbox).getD i.toNat default).from_,
          updateKey bs u fun b => { b with inbox := (b.inbox.eraseIdx i.toNat).map markRead })) := by
  have hc : containsKey bs u = true :=
    contains_of_userBox_ne fun he => hne (by rw [he]; rfl)
  have hens : ensure_user_box u bs = bs := ensureKey_of_contains bs u emptyMailbox hc
  have hb : ((userBox bs u).inbox).isEmpty = false := by
    cases hdd : (userBox bs u).inbox with
    | nil => exact absurd hdd hne
    | cons a l => rfl
  have hmarked : (userBox ((view_inbox u bs).2) u).inbox =
      ((userBox bs u).inbox).map markRead := by
    rw [view_inbox_snd u bs hc hne, userBox_update_self u bs _ hc]
  simp only [delete_email, hens, userBox_ensure, hb, Bool.false_eq_true, if_false,
    view_inbox_snd u bs hc hne, userBox_update_self u bs _ hc]
  refine ⟨?_, ?_, ?_⟩
  · intro hnone
    simp [hnone]
  · intro i hsome hrange
    simp only [hsome]
    rw [if_neg (by simpa using hrange)]
  · intro i hsome h0 hlen
    simp only [hsome]
    have hcnd : 0 ≤ i ∧ i < (((List.map markRead ((userBox bs u).inbox))).length : Int) := by
      constructor
      · exact h0
      · rw [List.length_map]
        exact hlen
    rw [if_pos hcnd]
    have htn : i.toNat < ((userBox bs u).inbox).length := by omega
    have hget : ((((userBox bs u).inbox).map markRead).getD i.toNat default).from_ =
        (((userBox bs u).inbox).getD i.toNat default).from_ := by
      rw [getD_map_lt markRead default default _ _ htn]
      rfl
    rw [updateKey_updateKey, hget]
    refine congrArg (Prod.mk _) (congrArg (updateKey bs u) ?_)
    funext x
    simp [eraseIdx_map]

/-- C5 witness: deleting index 2 from the inbox `[m0, m1, m2]` (already
marked read by the display) leaves `[m0, m1]` and reports the deleted
message's sender. -/
theorem delete_email_cases_witness :
    delete_email "u" "2"
      [("u", ⟨[⟨"a", [], "s0", "b0", "t0", true⟩,
               ⟨"b", [], "s1", "b1", "t1", true⟩,
               ⟨"c", [], "s2", "b2", "t2", true⟩], [], []⟩)] =
      (.deleted "c",
       [("u", ⟨[⟨"a", [], "s0", "b0", "t0", true⟩,
                ⟨"b", [], "s1", "b1", "t1", true⟩], [], []⟩)]) := by
  rw [(delete_email_cases "u" "2"
      [("u", ⟨[⟨"a", [], "s0", "b0", "t0", true⟩,
               ⟨"b", [], "s1", "b1", "t1", true⟩,
               ⟨"c", [], "s2", "b2", "t2", true⟩], [], []⟩)] (by decide)).2.2 2
      (by decide) (by decide) (by decide)]
  decide

/-! ## C4: the drafts menu -/

/-- Condition under which the draft command's index handling fails in
the source: the index token is missing or non-numeric, or the index is
out of range even for Python's negative-index rule. -/
def draftIndexBad (drafts : List Email) (choice : String) : Bool :=
  match (pySplit choice).get? 1 with
  | none => true
  | some tok =>
    match pyToInt tok with
    | none => true
    | some i => decide (i < -(drafts.length : Int) ∨ (drafts.length : Int) ≤ i)

theorem pyPop_eq_none_iff [Inhabited α] (l : List α) (i : Int) :
    pyPop l i = none ↔ i < -(l.length : Int) ∨ (l.length : Int) ≤ i := by
  simp only [pyPop]
  by_cases hi : i < 0
  · simp only [hi, if_true, if_pos]
    by_cases hj : 0 ≤ i + (l.length : Int) ∧ i + (l.length : Int) < (l.length : Int)
    · rw [if_pos hj]
      constructor
      · intro h
        simp at h
      · intro h
        exfalso
        rcases hj with ⟨h1, h2⟩
        rcases h with h | h <;> omega
    · rw [if_neg hj]
      constructor
      · intro _
        rcases not_and_or.mp hj with h | h
        · left
          omega
        · exfalso
          omega
      · intro _
        rfl
  · simp only [hi, if_false, Bool.false_eq_true]
    by_cases hj : 0 ≤ i ∧ i < (l.length : Int)
    · rw [if_pos hj]
      constructor
      · intro h
        simp at h
      · intro h
        exfalso
        rcases hj with ⟨h1, h2⟩
        rcases h with h | h <;> omega
    · rw [if_neg hj]
      constructor
      · intro _
        rcases not_and_or.mp hj with h | h
        · exfalso
          omega
        · right
          omega
      · intro _
        rfl

theorem startswith_del_not_send (s : String) (h : pyStartswith s "del" = true) :
    pyStartswith s "send" = false := by
  unfold pyStartswith at h ⊢
  cases hd : s.data with
  | nil =>
    rw [hd] at h
    simp [show ("del" : String).data = ['d', 'e', 'l'] from rfl, prefixOf] at h
  | cons c cs =>
    rw [hd] at h
    simp only [show ("del" : String).data = ['d', 'e', 'l'] from rfl, prefixOf,
      Bool.and_eq_true, decide_eq_true_eq] at h
    obtain ⟨hc, -⟩ := h
    subst hc
    simp [show ("send" : String).data = ['s', 'e', 'n', 'd'] from rfl, prefixOf]

/-- C4 counterexample. With one saved draft, the command `del -1` is not
rejected: Python's `pop(-1)` accepts the negative index and removes the
last draft, so the drafts list changes. -/
theorem view_drafts_negative_index_deletes :
    view_drafts "u" "del -1"
      [("u", ⟨[], [⟨"u", ["bob"], "s", "b", "t", false⟩], []⟩)] =
      (.deletedDraft, [("u", ⟨[], [], []⟩)]) := by decide

/-- C4 as amended. On a non-empty drafts list, a `send <i>` or `del <i>`
command whose token is missing or non-numeric, or whose index is out of
range under Python's negative-index rule (`i < -n` or `i ≥ n`), is
reported as an invalid index and leaves the whole store unchanged; an
index with `-n ≤ i < 0` instead acts on element `n + i`. Any input
starting with neither `send` nor `del` cancels with no mutation. -/
theorem view_drafts_error_cases (u line : String) (bs : Inboxes)
    (hne : (userBox bs u).drafts ≠ []) :
    (pyStartswith (pyStrip line) "send" = true →
       draftIndexBad (userBox bs u).drafts (pyStrip line) = true →
       view_drafts u line bs = (.invalidIndex, bs)) ∧
    (pyStartswith (pyStrip line) "del" = true →
       draftIndexBad (userBox bs u).drafts (pyStrip line) = true →
       view_drafts u line bs = (.invalidIndex, bs)) ∧
    (pyStartswith (pyStrip line) "send" = false →
       pyStartswith (pyStrip line) "del" = false →
       view_drafts u line bs = (.cancelled, bs)) := by
  have hc : containsKey bs u = true :=
    contains_of_userBox_ne fun he => hne (by rw [he]; rfl)
  have hens : ensure_user_box u bs = bs := ensureKey_of_contains bs u emptyMailbox hc
  have hb : ((userBox bs u).drafts).isEmpty = false := by
    cases hdd : (userBox bs u).drafts with
    | nil => exact absurd hdd hne
    | cons a l => rfl
  refine ⟨?_, ?_, ?_⟩
  · intro hsend hbad
    simp only [view_drafts, hens, userBox_ensure, hb, Bool.false_eq_true, if_false, hsend,
      if_true]
    unfold draftIndexBad at hbad
    cases hm : (pySplit (pyStrip line)).get? 1 with
    | none => simp [hm]
    | some tok =>
      simp only [hm] at hbad
      simp only [hm]
      cases hp : pyToInt tok with
      | none => simp [hp]
      | some i =>
        simp only [hp] at hbad
        have hcond : i < -(((userBox bs u).drafts).length : Int) ∨
            (((userBox bs u).drafts).length : Int) ≤ i := by simpa using hbad
        have hpop : pyPop ((userBox bs u).drafts) i = none :=
          (pyPop_eq_none_iff _ i).mpr hcond
        simp [hp, hpop]
  · intro hdel hbad
    have hsend : pyStartswith (pyStrip line) "send" = false :=
      startswith_del_not_send _ hdel
    simp only [view_drafts, hens, userBox_ensure, hb, Bool.false_eq_true, if_false, hsend,
      hdel, if_true]
    unfold draftIndexBad at hbad
    cases hm : (pySplit (pyStrip line)).get? 1 with
    | none => simp [hm]
    | some tok =>
      simp only [hm] at hbad
      simp only [hm]
      cases hp : pyToInt tok with
      | none => simp [hp]
      | some i =>
        simp only [hp] at hbad
        have hcond : i < -(((userBox bs u).drafts).length : Int) ∨
            (((userBox bs u).drafts).length : Int) ≤ i := by simpa using hbad
        have hpop : pyPop ((userBox bs u).drafts) i = none :=
          (pyPop_eq_none_iff _ i).mpr hcond
        simp [hp, hpop]
  · intro hsend hdel
    simp [view_drafts, hens, userBox_ensure, hb, hsend, hdel]

/-- C4 witness: with one saved draft, `send 5` (out of range) and the
unrelated input `hello` leave the store unchanged. -/
theorem view_drafts_error_cases_witness :
    view_drafts "u" "send 5"
      [("u", ⟨[], [⟨"u", ["bob"], "s", "b", "t", false⟩], []⟩)] =
      (.invalidIndex, [("u", ⟨[], [⟨"u", ["bob"], "s", "b", "t", false⟩], []⟩)]) ∧
    view_drafts "u" "hello"
      [("u", ⟨[], [⟨"u", ["bob"], "s", "b", "t", false⟩], []⟩)] =
      (.cancelled, [("u", ⟨[], [⟨"u", ["bob"], "s", "b", "t", false⟩], []⟩)]) :=
  ⟨(view_drafts_error_cases "u" "send 5"
      [("u", ⟨[], [⟨"u", ["bob"], "s", "b", "t", false⟩], []⟩)] (by decide)).1
      (by decide) (by decide),
   (view_drafts_error_cases "u" "hello"
      [("u", ⟨[], [⟨"u", ["bob"], "s", "b", "t", false⟩], []⟩)] (by decide)).2.2
      (by decide) (by decide)⟩

/-! ## Heap-model lemmas for `send_email` -/

theorem getKeyD_updateKey_self (m : List (String × β)) (k : String) (f : β → β) (d : β)
    (hc : containsKey m k = true) : getKeyD (updateKey m k f) k d = f (getKeyD m k d) := by
  unfold getKeyD
  rw [lookupKey_updateKey_self]
  rcases Option.isSome_iff_exists.mp hc with ⟨v, hv⟩
  simp [hv]

theorem getKeyD_updateKey_ne {k q : String} (m : List (String × β)) (f : β → β) (d : β)
    (h : q ≠ k) : getKeyD (updateKey m k f) q d = getKeyD m q d := by
  unfold getKeyD
  rw [lookupKey_updateKey_ne m f h]

theorem updateKey_of_not_contains :
    ∀ (m : List (String × β)) (k : String) (f : β → β), containsKey m k = false →
      updateKey m k f = m
  | [], _, _, _ => rfl
  | p :: ps, k, f, h => by
    by_cases hp : p.1 = k
    · simp [containsKey, lookupKey, hp] at h
    · simp only [containsKey, lookupKey, hp, if_neg] at h
      simp [updateKey, hp, updateKey_of_not_contains ps k f h]

theorem getKeyD_update_ensure (bs : List (String × β)) (r q : String) (d : β) (f : β → β) :
    getKeyD (updateKey (ensureKey bs r d) r f) q d =
      if q = r then f (getKeyD bs r d) else getKeyD bs q d := by
  by_cases hq : q = r
  · subst hq
    rw [if_pos rfl,
      getKeyD_updateKey_self _ _ _ _ (containsKey_ensureKey_self bs q d),
      getKeyD_ensureKey]
  · rw [if_neg hq, getKeyD_updateKey_ne _ _ _ hq, getKeyD_ensureKey]

theorem containsKey_updateKey (m : List (String × β)) (k : String) (f : β → β) (q : String) :
    containsKey (updateKey m k f) q = containsKey m q := by
  unfold containsKey
  by_cases hq : q = k
  · subst hq
    rw [lookupKey_updateKey_self]
    cases lookupKey m q <;> rfl
  · rw [lookupKey_updateKey_ne m f hq]

theorem containsKey_ensureKey_of (m : List (String × β)) (k : String) (d : β) (q : String)
    (h : containsKey m q = true) : containsKey (ensureKey m k d) q = true := by
  unfold ensureKey
  by_cases hc : containsKey m k
  · simpa [hc] using h
  · simp only [hc, Bool.false_eq_true, if_neg, if_false]
    unfold containsKey at h ⊢
    rw [lookupKey_append_left _ h]
    exact h

theorem deliverLoop_heap (v : Email) :
    ∀ (rs : List String) (h : List Email) (bs : List (String × RefBox)),
      (deliverLoop v rs (h, bs)).1 = h ++ List.replicate rs.length v
  | [], h, bs => by simp [deliverLoop]
  | r :: rs, h, bs => by
    rw [deliverLoop, deliverLoop_heap v rs]
    simp [List.replicate_succ]

theorem deliverLoop_sent_drafts (v : Email) :
    ∀ (rs : List String) (h : List Email) (bs : List (String × RefBox)) (q : String),
      (getKeyD (deliverLoop v rs (h, bs)).2 q emptyRefBox).sent =
        (getKeyD bs q emptyRefBox).sent ∧
      (getKeyD (deliverLoop v rs (h, bs)).2 q emptyRefBox).drafts =
        (getKeyD bs q emptyRefBox).drafts
  | [], h, bs, q => ⟨rfl, rfl⟩
  | r :: rs, h, bs, q => by
    rw [deliverLoop]
    rcases deliverLoop_sent_drafts v rs (h ++ [v])
      (updateKey (ensureKey bs r emptyRefBox) r
        fun b => { b with inbox := b.inbox ++ [h.length] }) q with ⟨h1, h2⟩
    rw [h1, h2, getKeyD_update_ensure]
    by_cases hq : q = r
    · subst hq
      simp
    · simp [hq]

theorem deliverLoop_contains (v : Email) :
    ∀ (rs : List String) (h : List Email) (bs : List (String × RefBox)) (q : String),
      containsKey bs q = true →
      containsKey (deliverLoop v rs (h, bs)).2 q = true
  | [], _, _, _, hq => hq
  | r :: rs, h, bs, q, hq => by
    rw [deliverLoop]
    exact deliverLoop_contains v rs _ _ q
      (by rw [containsKey_updateKey]; exact containsKey_ensureKey_of bs r emptyRefBox q hq)

theorem deliverLoop_contains_mem (v : Email) :
    ∀ (rs : List String) (h : List Email) (bs : List (String × RefBox)) (r : String),
      r ∈ rs → containsKey (deliverLoop v rs (h, bs)).2 r = true
  | [], _, _, _, hr => absurd hr (List.not_mem_nil _)
  | a :: rs, h, bs, r, hr => by
    rw [deliverLoop]
    rcases List.mem_cons.mp hr with hra | hrs
    · subst hra
      exact deliverLoop_contains v rs _ _ r
        (by rw [containsKey_updateKey]; exact containsKey_ensureKey_self bs r emptyRefBox)
    · exact deliverLoop_contains_mem v rs _ _ r hrs

theorem deliverLoop_inbox_not_mem (v : Email) :
    ∀ (rs : List String) (h : List Email) (bs : List (String × RefBox)) (q : String),
      q ∉ rs →
      (getKeyD (deliverLoop v rs (h, bs)).2 q emptyRefBox).inbox =
        (getKeyD bs q emptyRefBox).inbox
  | [], _, _, _, _ => rfl
  | r :: rs, h, bs, q, hq => by
    rw [deliverLoop]
    have hqr : q ≠ r := fun hh => hq (hh ▸ List.mem_cons_self r rs)
    rw [deliverLoop_inbox_not_mem v rs _ _ q fun hh => hq (List.mem_cons_of_mem r hh),
      getKeyD_update_ensure, if_neg hqr]

theorem deliverLoop_inbox_of_mem (v : Email) :
    ∀ (rs : List String) (h : List Email) (bs : List (String × RefBox)) (r : String),
      rs.Nodup → r ∈ rs →
      (getKeyD (deliverLoop v rs (h, bs)).2 r emptyRefBox).inbox =
        (getKeyD bs r emptyRefBox).inbox ++ [h.length + rs.indexOf r]
  | [], _, _, _, _, hr => absurd hr (List.not_mem_nil _)
  | a :: rs, h, bs, r, hnd, hr => by
    rw [deliverLoop]
    rcases List.mem_cons.mp hr with hra | hrs
    · subst hra
      have hnotin : r ∉ rs := (List.nodup_cons.mp hnd).1
      rw [deliverLoop_inbox_not_mem v rs _ _ r hnotin, getKeyD_update_ensure, if_pos rfl,
        List.indexOf_cons_self]
      simp
    · have hra : r ≠ a := by
        rintro rfl
        exact (List.nodup_cons.mp hnd).1 hrs
      rw [deliverLoop_inbox_of_mem v rs _ _ r (List.nodup_cons.mp hnd).2 hrs,
        getKeyD_update_ensure, if_neg hra, List.indexOf_cons_ne _ (fun hh => hra hh.symm)]
      simp only [List.length_append, List.length_cons, List.length_nil, Nat.succ_eq_add_one]
      congr 2
      omega

theorem deliverLoop_inbox_length (v : Email) :
    ∀ (rs : List String) (h : List Email) (bs : List (String × RefBox)) (q : String),
      (getKeyD (deliverLoop v rs (h, bs)).2 q emptyRefBox).inbox.length =
        (getKeyD bs q emptyRefBox).inbox.length + rs.count q
  | [], _, _, _ => by simp [deliverLoop]
  | r :: rs, h, bs, q => by
    rw [deliverLoop, deliverLoop_inbox_length v rs, getKeyD_update_ensure, List.count_cons]
    by_cases hq : q = r
    · subst hq
      simp only [if_pos rfl, beq_self_eq_true, if_true, List.length_append, List.length_cons,
        List.length_nil]
      omega
    · have : (r == q) = false := by simpa using fun hh => hq hh.symm
      simp only [if_neg hq, this, Bool.false_eq_true, if_false]
      omega

theorem getD_append_replicate (h : List Email) (v : Email) (n k : Nat) (hk : k < n) :
    (h ++ List.replicate n v).getD (h.length + k) default = v := by
  rw [List.getD_eq_getElem?_getD, List.getElem?_append_right (by omega)]
  simp [List.getElem?_replicate, hk]

theorem getD_append_left (h t : List Email) (i : Nat) (hi : i < h.length) :
    (h ++ t).getD i default = h.getD i default := by
  rw [List.getD_eq_getElem?_getD, List.getElem?_append_left hi, ← List.getD_eq_getElem?_getD]

theorem setHeapRead_getD_self :
    ∀ (l : List Email) (i : Nat), i < l.length →
      (setHeapRead l i).getD i default = markRead (l.getD i default)
  | [], i, hi => by simp at hi
  | e :: es, 0, _ => rfl
  | e :: es, i + 1, hi => by
    rw [setHeapRead, List.getD_cons_succ, List.getD_cons_succ]
    exact setHeapRead_getD_self es i (by simpa using hi)

theorem setHeapRead_getD_ne :
    ∀ (l : List Email) (i j : Nat), i ≠ j →
      (setHeapRead l i).getD j default = l.getD j default
  | [], _, _, _ => rfl
  | e :: es, 0, 0, hij => absurd rfl hij
  | e :: es, 0, j + 1, _ => by rw [setHeapRead, List.getD_cons_succ, List.getD_cons_succ]
  | e :: es, i + 1, 0, _ => rfl
  | e :: es, i + 1, j + 1, hij => by
    rw [setHeapRead, List.getD_cons_succ, List.getD_cons_succ]
    exact setHeapRead_getD_ne es i j (fun hh => hij (by omega))

/-- Sent-list behaviour of a successful send, shared by several claims:
the sender's sent list gains exactly the id of the original email
object. -/
theorem send_email_sent_eq (sender : String) (emailId : Nat) (recipients : List String)
    (s : HeapStore) :
    (refBox (send_email sender emailId recipients "send" s).2 sender).sent =
      (refBox s sender).sent ++ [emailId] := by
  unfold send_email refBox
  simp only [if_pos rfl, reduceIte]
  have hcon : containsKey
      (deliverLoop (heapVal s emailId) recipients
        (s.heap, ensureKey s.boxes sender emptyRefBox)).2 sender = true :=
    deliverLoop_contains _ recipients _ _ sender (containsKey_ensureKey_self _ _ _)
  rw [getKeyD_updateKey_self _ _ _ _ hcon]
  rw [(deliverLoop_sent_drafts _ recipients _ _ sender).1, getKeyD_ensureKey]

/-- Inbox lists are untouched by the final sent-list update of
`send_email`. -/
theorem inbox_after_sent_update (m : List (String × RefBox)) (sender q : String)
    (eid : Nat) :
    (getKeyD (updateKey m sender fun b => { b with sent := b.sent ++ [eid] }) q
      emptyRefBox).inbox = (getKeyD m q emptyRefBox).inbox := by
  by_cases hq : q = sender
  · subst hq
    by_cases hc : containsKey m q
    · rw [getKeyD_updateKey_self _ _ _ _ hc]
    · rw [updateKey_of_not_contains m q _ (by simpa using hc)]
  · rw [getKeyD_updateKey_ne _ _ _ hq]

/-! ## C1, C6, C10: `send_email` -/

/-- C1. Sending with action `"send"` to distinct recipients appends
exactly one entry (the original email object's id) to the sender's sent
list and, for each recipient, creates the recipient's mailbox if absent
and appends exactly one fresh message object carrying the email's value
to that recipient's inbox; the fresh objects are pairwise distinct and
distinct from the original, so setting the read flag on one recipient's
new inbox copy changes neither another recipient's copy nor the object
referenced from the sender's sent list. -/
theorem send_email_independent_copies (sender : String) (emailId : Nat)
    (recipients : List String) (s : HeapStore)
    (hid : emailId < s.heap.length) (hnd : recipients.Nodup) :
    (send_email sender emailId recipients "send" s).1 = .sentOk ∧
    (refBox (send_email sender emailId recipients "send" s).2 sender).sent =
      (refBox s sender).sent ++ [emailId] ∧
    (∀ r ∈ recipients,
       containsKey (send_email sender emailId recipients "send" s).2.boxes r = true ∧
       (refBox (send_email sender emailId recipients "send" s).2 r).inbox =
         (refBox s r).inbox ++ [s.heap.length + recipients.indexOf r] ∧
       heapVal (send_email sender emailId recipients "send" s).2
         (s.heap.length + recipients.indexOf r) = heapVal s emailId) ∧
    (∀ r1 ∈ recipients, ∀ r2 ∈ recipients, r1 ≠ r2 →
       heapVal (set_read (send_email sender emailId recipients "send" s).2
           (s.heap.length + recipients.indexOf r1))
         (s.heap.length + recipients.indexOf r1) = markRead (heapVal s emailId) ∧
       heapVal (set_read (send_email sender emailId recipients "send" s).2
           (s.heap.length + recipients.indexOf r1))
         (s.heap.length + recipients.indexOf r2) = heapVal s emailId ∧
       heapVal (set_read (send_email sender emailId recipients "send" s).2
           (s.heap.length + recipients.indexOf r1)) emailId = heapVal s emailId) := by
  have hout : (send_email sender emailId recipients "send" s).2 =
      ⟨(deliverLoop (heapVal s emailId) recipients
          (s.heap, ensureKey s.boxes sender emptyRefBox)).1,
        updateKey (deliverLoop (heapVal s emailId) recipients
          (s.heap, ensureKey s.boxes sender emptyRefBox)).2 sender
          fun b => { b with sent := b.sent ++ [emailId] }⟩ := by
    simp [send_email]
  have hheap : (send_email sender emailId recipients "send" s).2.heap =
      s.heap ++ List.replicate recipients.length (heapVal s emailId) := by
    rw [hout]
    exact deliverLoop_heap _ recipients _ _
  refine ⟨by simp [send_email], send_email_sent_eq sender emailId recipients s, ?_, ?_⟩
  · intro r hr
    have hidx : recipients.indexOf r < recipients.length :=
      List.indexOf_lt_length.mpr hr
    refine ⟨?_, ?_, ?_⟩
    · rw [hout]
      show containsKey (updateKey _ _ _) r = true
      rw [containsKey_updateKey]
      exact deliverLoop_contains_mem _ recipients _ _ r hr
    · rw [hout]
      unfold refBox
      show (getKeyD (updateKey _ sender _) r emptyRefBox).inbox = _
      rw [inbox_after_sent_update, deliverLoop_inbox_of_mem _ recipients _ _ r hnd hr,
        getKeyD_ensureKey]
    · unfold heapVal
      rw [hheap]
      exact getD_append_replicate s.heap _ recipients.length _ hidx
  · intro r1 hr1 r2 hr2 hne
    have hidx1 : recipients.indexOf r1 < recipients.length :=
      List.indexOf_lt_length.mpr hr1
    have hidx2 : recipients.indexOf r2 < recipients.length :=
      List.indexOf_lt_length.mpr hr2
    have hij : recipients.indexOf r1 ≠ recipients.indexOf r2 :=
      fun hh => hne ((List.indexOf_inj hr1 hr2).mp hh)
    have hlen2 : (send_email sender emailId recipients "send" s).2.heap.length =
        s.heap.length + recipients.length := by
      rw [hheap]
      simp
    refine ⟨?_, ?_, ?_⟩
    · show (setHeapRead _ _).getD _ default = _
      rw [setHeapRead_getD_self _ _ (by omega)]
      have : (send_email sender emailId recipients "send" s).2.heap.getD
          (s.heap.length + recipients.indexOf r1) default = heapVal s emailId := by
        rw [hheap]
        exact getD_append_replicate s.heap _ recipients.length _ hidx1
      rw [this]
    · show (setHeapRead _ _).getD _ default = _
      rw [setHeapRead_getD_ne _ _ _ (by omega)]
      rw [hheap]
      exact getD_append_replicate s.heap _ recipients.length _ hidx2
    · show (setHeapRead _ _).getD _ default = _
      rw [setHeapRead_getD_ne _ _ _ (by omega)]
      unfold heapVal
      rw [hheap]
      exact getD_append_left s.heap _ emailId hid

/-- C1 witness: sending one email from `alice` to `bob` and `carol`, then
marking `bob`'s copy read, leaves `carol`'s copy and the object in
`alice`'s sent list unread. -/
theorem send_email_independent_copies_witness :
    (refBox (send_email "alice" 0 ["bob", "carol"] "send"
        ⟨[⟨"alice", ["bob", "carol"], "s", "b", "t", false⟩], []⟩).2 "alice").sent = [0] ∧
    heapVal (set_read (send_email "alice" 0 ["bob", "carol"] "send"
          ⟨[⟨"alice", ["bob", "carol"], "s", "b", "t", false⟩], []⟩).2
        ((⟨[⟨"alice", ["bob", "carol"], "s", "b", "t", false⟩],
            []⟩ : HeapStore).heap.length + List.indexOf "bob" ["bob", "carol"]))
      ((⟨[⟨"alice", ["bob", "carol"], "s", "b", "t", false⟩],
          []⟩ : HeapStore).heap.length + List.indexOf "carol" ["bob", "carol"]) =
      heapVal ⟨[⟨"alice", ["bob", "carol"], "s", "b", "t", false⟩], []⟩ 0 := by
  constructor
  · rw [(send_email_independent_copies "alice" 0 ["bob", "carol"]
      ⟨[⟨"alice", ["bob", "carol"], "s", "b", "t", false⟩], []⟩
      (by decide) (by decide)).2.1]
    decide
  · exact ((send_email_independent_copies "alice" 0 ["bob", "carol"]
      ⟨[⟨"alice", ["bob", "carol"], "s", "b", "t", false⟩], []⟩
      (by decide) (by decide)).2.2.2 "bob" (by decide) "carol" (by decide)
      (by decide)).2.1

/-- C6 counterexample. With an empty mailbox store, an unrecognised
action (`"both"`) still creates the sender's mailbox, because
`send_email` calls `ensure_user_box(sender, inboxes)` before inspecting
the action; the claim's "no mailbox created" fails. -/
theorem send_email_invalid_action_creates_mailbox :
    send_email "alice" 0 [] "both" ⟨[⟨"alice", [], "s", "b", "t", false⟩], []⟩ =
      (.invalidAction,
       ⟨[⟨"alice", [], "s", "b", "t", false⟩], [("alice", emptyRefBox)]⟩) := by decide

/-- C6 as amended. For an action other than `"send"` and `"draft"`,
`send_email` reports it as invalid, appends no message id to any inbox,
drafts, or sent list, touches no recipient mailbox and leaves the heap
unchanged; its only store mutation is the unconditional
`ensure_user_box(sender)`, which creates an empty mailbox for the sender
when absent (and is a no-op otherwise). -/
theorem send_email_invalid_action_spec (sender : String) (emailId : Nat)
    (recipients : List String) (action : String) (s : HeapStore)
    (h1 : action ≠ "send") (h2 : action ≠ "draft") :
    send_email sender emailId recipients action s =
      (.invalidAction, ⟨s.heap, ensureKey s.boxes sender emptyRefBox⟩) ∧
    (∀ q, refBox (send_email sender emailId recipients action s).2 q = refBox s q) ∧
    (send_email sender emailId recipients action s).2.heap = s.heap := by
  have he : send_email sender emailId recipients action s =
      (.invalidAction, ⟨s.heap, ensureKey s.boxes sender emptyRefBox⟩) := by
    simp [send_email, h1, h2]
  refine ⟨he, fun q => ?_, by rw [he]⟩
  rw [he]
  exact getKeyD_ensureKey s.boxes sender q emptyRefBox

/-- C6 witness: when the sender already has a mailbox, an invalid action
leaves the whole store exactly as it was. -/
theorem send_email_invalid_action_spec_witness :
    send_email "bob" 0 ["x"] "abc" ⟨[], [("bob", emptyRefBox)]⟩ =
      (.invalidAction, ⟨[], [("bob", emptyRefBox)]⟩) := by
  rw [(send_email_invalid_action_spec "bob" 0 ["x"] "abc" ⟨[], [("bob", emptyRefBox)]⟩
    (by decide) (by decide)).1]
  decide

/-- C10. Sending with action `"send"` appends one fresh copy to a
recipient's inbox per occurrence of that name in the recipient list (a
name listed twice receives two copies), and appends the email to the
sender's sent list even when the recipient list is empty. -/
theorem send_email_per_occurrence (sender : String) (emailId : Nat)
    (recipients : List String) (s : HeapStore) :
    (refBox (send_email sender emailId recipients "send" s).2 sender).sent =
      (refBox s sender).sent ++ [emailId] ∧
    ∀ r : String,
      (refBox (send_email sender emailId recipients "send" s).2 r).inbox.length =
        (refBox s r).inbox.length + recipients.count r := by
  refine ⟨send_email_sent_eq sender emailId recipients s, fun r => ?_⟩
  have hout : (send_email sender emailId recipients "send" s).2 =
      ⟨(deliverLoop (heapVal s emailId) recipients
          (s.heap, ensureKey s.boxes sender emptyRefBox)).1,
        updateKey (deliverLoop (heapVal s emailId) recipients
          (s.heap, ensureKey s.boxes sender emptyRefBox)).2 sender
          fun b => { b with sent := b.sent ++ [emailId] }⟩ := by
    simp [send_email]
  rw [hout]
  unfold refBox
  show (getKeyD (updateKey _ sender _) r emptyRefBox).inbox.length = _
  rw [inbox_after_sent_update, deliverLoop_inbox_length _ recipients _ _ r,
    getKeyD_ensureKey]

/-! ## C9: the persistence layer

`save_json` writes `json.dump(data, f, indent=4)` and `load_json` reads
`json.load(f)`, over the two stores the program persists (accounts:
string to string; mailboxes: string to three message arrays). The JSON
text is modelled explicitly: a serialiser produces the document (without
the `indent` whitespace, which `json.load` skips and which therefore
cannot affect the save-then-load composition) and a parser reads it
back. Strings are escaped as JSON requires: `"` and `\` with a
backslash, control characters as `\u00XX`; other characters stand for
themselves (`ensure_ascii=False` form; the `ensure_ascii=True` default
escapes more, which again cannot affect the round trip). The file system
is a mapping from paths to file texts. -/

def hexDigitChar : Nat → Char
  | 0 => '0' | 1 => '1' | 2 => '2' | 3 => '3' | 4 => '4' | 5 => '5' | 6 => '6'
  | 7 => '7' | 8 => '8' | 9 => '9' | 10 => 'a' | 11 => 'b' | 12 => 'c' | 13 => 'd'
  | 14 => 'e' | _ => 'f'

def hexVal (c : Char) : Option Nat :=
  if c.isDigit then some (c.toNat - 48)
  else if 'a' ≤ c ∧ c ≤ 'f' then some (c.toNat - 87)
  else none

/-- JSON escaping of one character. -/
def escapeChar (c : Char) : List Char :=
  if c = '"' then ['\\', '"']
  else if c = '\\' then ['\\', '\\']
  else if c.toNat < 32 then
    ['\\', 'u', '0', '0', hexDigitChar (c.toNat / 16), hexDigitChar (c.toNat % 16)]
  else [c]

def escapeList : List Char → List Char
  | [] => []
  | c :: cs => escapeChar c ++ escapeList cs

/-- Serialised JSON string. -/
def serStr (s : String) : List Char :=
  '"' :: (escapeList s.data ++ ['"'])

def serBool : Bool → List Char
  | true => ['t', 'r', 'u', 'e']
  | false => ['f', 'a', 'l', 's', 'e']

def serTail (f : α → List Char) : List α → List Char
  | [] => []
  | x :: xs => ',' :: (f x ++ serTail f xs)

def serCommaSep (f : α → List Char) : List α → List Char
  | [] => []
  | x :: xs => f x ++ serTail f xs

/-- Bracketed comma-separated sequence (array or object). -/
def serSeq (op cl : Char) (f : α → List Char) (xs : List α) : List Char :=
  op :: (serCommaSep f xs ++ [cl])

def serKey (k : String) : List Char := serStr k ++ [':']

/-- Serialised message object, with the key order `compose_email` uses. -/
def serEmail (e : Email) : List Char :=
  '{' :: (serKey "from" ++ serStr e.from_ ++
    ',' :: (serKey "to" ++ serSeq '[' ']' serStr e.to_ ++
    ',' :: (serKey "subject" ++ serStr e.subject ++
    ',' :: (serKey "body" ++ serStr e.body ++
    ',' :: (serKey "time" ++ serStr e.time ++
    ',' :: (serKey "read" ++ serBool e.read ++ ['}']))))))

/-- Serialised mailbox object, with the key order `ensure_user_box` uses. -/
def serMailbox (b : Mailbox) : List Char :=
  '{' :: (serKey "inbox" ++ serSeq '[' ']' serEmail b.inbox ++
    ',' :: (serKey "drafts" ++ serSeq '[' ']' serEmail b.drafts ++
    ',' :: (serKey "sent" ++ serSeq '[' ']' serEmail b.sent ++ ['}'])))

def serPair (fv : β → List Char) (p : String × β) : List Char :=
  serStr p.1 ++ ':' :: fv p.2

/-- Text produced by `json.dump` for the accounts store. -/
def dump_users (users : List (String × String)) : String :=
  String.mk (serSeq '{' '}' (serPair serStr) users)

/-- Text produced by `json.dump` for the mailbox store. -/
def dump_inboxes (bs : Inboxes) : String :=
  String.mk (serSeq '{' '}' (serPair serMailbox) bs)

/-- Consume an expected literal prefix. -/
def expectChars : List Char → List Char → Option (List Char)
  | [], cs => some cs
  | _ :: _, [] => none
  | p :: ps, c :: cs => if c = p then expectChars ps cs else none

/-- Decoding of a `\u`-escape from its four hex digits. -/
def decodeU (a b c2 d : Char) : Option Char :=
  match hexVal a, hexVal b, hexVal c2, hexVal d with
  | some va, some vb, some vc, some vd =>
    let n := ((va * 16 + vb) * 16 + vc) * 16 + vd
    if n < 55296 then some (Char.ofNat n) else none
  | _, _, _, _ => none

/-- Body of a JSON string after the opening quote: literal characters up
to the closing quote, with the escapes the serialiser can emit. -/
def parseStrAux : List Char → Option (List Char × List Char)
  | [] => none
  | '"' :: cs1 => some ([], cs1)
  | '\\' :: '"' :: cs2 => (parseStrAux cs2).map (fun p => ('"' :: p.1, p.2))
  | '\\' :: '\\' :: cs2 => (parseStrAux cs2).map (fun p => ('\\' :: p.1, p.2))
  | '\\' :: 'u' :: a :: b :: c2 :: d :: cs3 =>
    (decodeU a b c2 d).bind fun ch => (parseStrAux cs3).map (fun p => (ch :: p.1, p.2))
  | '\\' :: _ => none
  | c :: cs1 => (parseStrAux cs1).map (fun p => (c :: p.1, p.2))

def parseStr : List Char → Option (String × List Char)
  | '"' :: cs1 => (parseStrAux cs1).map (fun p => (String.mk p.1, p.2))
  | _ => none

def parseBool (cs : List Char) : Option (Bool × List Char) :=
  match expectChars ['t', 'r', 'u', 'e'] cs with
  | some r => some (true, r)
  | none =>
    match expectChars ['f', 'a', 'l', 's', 'e'] cs with
    | some r => some (false, r)
    | none => none

/-- Items of a sequence after the first one: `, item ... close`. The
fuel bounds the number of items and only needs to exceed it. -/
def parseSeqRest (cl : Char) (p : List Char → Option (α × List Char)) :
    Nat → List Char → Option (List α × List Char)
  | 0, _ => none
  | fuel + 1, cs =>
    match expectChars [cl] cs with
    | some cs1 => some ([], cs1)
    | none =>
      (expectChars [','] cs).bind fun cs1 =>
        (p cs1).bind fun xc =>
          (parseSeqRest cl p fuel xc.2).map fun q => (xc.1 :: q.1, q.2)

def parseSeq (op cl : Char) (p : List Char → Option (α × List Char)) (fuel : Nat)
    (cs : List Char) : Option (List α × List Char) :=
  (expectChars [op] cs).bind fun cs1 =>
    match expectChars [cl] cs1 with
    | some cs2 => some ([], cs2)
    | none =>
      (p cs1).bind fun xc =>
        (parseSeqRest cl p fuel xc.2).map fun q => (xc.1 :: q.1, q.2)

def parseEmail (fuel : Nat) (cs : List Char) : Option (Email × List Char) :=
  (expectChars ('{' :: serKey "from") cs).bind fun cs1 =>
  (parseStr cs1).bind fun fc =>
  (expectChars (',' :: serKey "to") fc.2).bind fun cs2 =>
  (parseSeq '[' ']' parseStr fuel cs2).bind fun tc =>
  (expectChars (',' :: serKey "subject") tc.2).bind fun cs3 =>
  (parseStr cs3).bind fun sc =>
  (expectChars (',' :: serKey "body") sc.2).bind fun cs4 =>
  (parseStr cs4).bind fun bc =>
  (expectChars (',' :: serKey "time") bc.2).bind fun cs5 =>
  (parseStr cs5).bind fun mc =>
  (expectChars (',' :: serKey "read") mc.2).bind fun cs6 =>
  (parseBool cs6).bind fun rc =>
  (expectChars ['}'] rc.2).map fun cs7 =>
  (⟨fc.1, tc.1, sc.1, bc.1, mc.1, rc.1⟩, cs7)

def parseMailbox (fuel : Nat) (cs : List Char) : Option (Mailbox × List Char) :=
  (expectChars ('{' :: serKey "inbox") cs).bind fun cs1 =>
  (parseSeq '[' ']' (parseEmail fuel) fuel cs1).bind fun ic =>
  (expectChars (',' :: serKey "drafts") ic.2).bind fun cs2 =>
  (parseSeq '[' ']' (parseEmail fuel) fuel cs2).bind fun dc =>
  (expectChars (',' :: serKey "sent") dc.2).bind fun cs3 =>
  (parseSeq '[' ']' (parseEmail fuel) fuel cs3).bind fun sc =>
  (expectChars ['}'] sc.2).map fun cs4 =>
  (⟨ic.1, dc.1, sc.1⟩, cs4)

def parsePair (pv : List Char → Option (β × List Char)) (cs : List Char) :
    Option ((String × β) × List Char) :=
  (parseStr cs).bind fun kc =>
  (expectChars [':'] kc.2).bind fun cs1 =>
  (pv cs1).map fun vc => ((kc.1, vc.1), vc.2)

/-- Reading the accounts file text back (`json.load`); `none` models the
uncaught exception on malformed text. -/
def parse_users (s : String) : Option (List (String × String)) :=
  match parseSeq '{' '}' (parsePair parseStr) (s.data.length + 1) s.data with
  | some (m, []) => some m
  | _ => none

/-- Reading the mailboxes file text back (`json.load`). -/
def parse_inboxes (s : String) : Option Inboxes :=
  match parseSeq '{' '}' (parsePair (parseMailbox (s.data.length + 1)))
      (s.data.length + 1) s.data with
  | some (m, []) => some m
  | _ => none

/-- The file system: a mapping from paths to file texts. -/
abbrev FileSystem := List (String × String)

/-- Embedding of `save_json`: serialise and fully overwrite the path. -/
def save_json (filename : String) (text : String) (fs : FileSystem) : FileSystem :=
  setKey fs filename text

/-- Embedding of `load_json` at the accounts file: an absent path yields
the empty mapping (absence is not an error); stored text is parsed. -/
def load_users (filename : String) (fs : FileSystem) : Option (List (String × String)) :=
  match lookupKey fs filename with
  | none => some []
  | some text => parse_users text

/-- Embedding of `load_json` at the mailboxes file. -/
def load_inboxes (filename : String) (fs : FileSystem) : Option Inboxes :=
  match lookupKey fs filename with
  | none => some []
  | some text => parse_inboxes text

/-! ## Round-trip lemmas -/

theorem stringMk_data (s : String) : String.mk s.data = s := by
  cases s
  rfl

theorem expectChars_append : ∀ (pat rest : List Char),
    expectChars pat (pat ++ rest) = some rest
  | [], rest => rfl
  | p :: ps, rest => by simp [expectChars, expectChars_append ps rest]

theorem expectChars_cons_ne (d e : Char) (X : List Char) (h : ¬d = e) :
    expectChars [e] (d :: X) = none := by
  rw [expectChars, if_neg h]

theorem expectChars_cons_self (e : Char) (X : List Char) :
    expectChars [e] (e :: X) = some X := by
  rw [expectChars, if_pos rfl]
  rfl

theorem expectChars_cons_append (c : Char) (pat X : List Char) :
    expectChars (c :: pat) (c :: (pat ++ X)) = some X := by
  rw [expectChars, if_pos rfl]
  exact expectChars_append pat X

theorem hexVal_hexDigitChar : ∀ n, n < 16 → hexVal (hexDigitChar n) = some n := by decide

theorem decodeU_escape (c : Char) (h3 : c.toNat < 32) :
    decodeU '0' '0' (hexDigitChar (c.toNat / 16)) (hexDigitChar (c.toNat % 16)) = some c := by
  have hd1 := hexVal_hexDigitChar (c.toNat / 16) (by omega)
  have hd2 := hexVal_hexDigitChar (c.toNat % 16) (by omega)
  unfold decodeU
  rw [show hexVal '0' = some 0 from rfl, hd1, hd2]
  simp only [Option.some_bind]
  have hdm := Nat.div_add_mod c.toNat 16
  have hn : ((0 * 16 + 0) * 16 + c.toNat / 16) * 16 + c.toNat % 16 = c.toNat := by omega
  rw [hn, if_pos (by omega), Char.ofNat_toNat]

theorem parseStrAux_cons_other (c : Char) (X : List Char) (h1 : ¬c = '"')
    (h2 : ¬c = '\\') :
    parseStrAux (c :: X) = (parseStrAux X).map (fun p => (c :: p.1, p.2)) := by
  simp [parseStrAux, h1, h2]

theorem parseStrAux_escape : ∀ (s rest : List Char),
    parseStrAux (escapeList s ++ '"' :: rest) = some (s, rest)
  | [], rest => rfl
  | c :: s, rest => by
    by_cases h1 : c = '"'
    · subst h1
      simp only [escapeList, show escapeChar '"' = ['\\', '"'] from rfl,
        List.cons_append, List.nil_append]
      rw [show ∀ X, parseStrAux ('\\' :: '"' :: X) =
          (parseStrAux X).map (fun p => ('"' :: p.1, p.2)) from fun _ => rfl,
        parseStrAux_escape s rest]
      rfl
    · by_cases h2 : c = '\\'
      · subst h2
        simp only [escapeList, show escapeChar '\\' = ['\\', '\\'] from rfl,
          List.cons_append, List.nil_append]
        rw [show ∀ X, parseStrAux ('\\' :: '\\' :: X) =
            (parseStrAux X).map (fun p => ('\\' :: p.1, p.2)) from fun _ => rfl,
          parseStrAux_escape s rest]
        rfl
      · by_cases h3 : c.toNat < 32
        · simp only [escapeList, show escapeChar c = ['\\', 'u', '0', '0',
            hexDigitChar (c.toNat / 16), hexDigitChar (c.toNat % 16)] from by
              rw [escapeChar, if_neg h1, if_neg h2, if_pos h3],
            List.cons_append, List.nil_append]
          rw [show ∀ (a b c2 d : Char) (X : List Char),
              parseStrAux ('\\' :: 'u' :: a :: b :: c2 :: d :: X) =
                (decodeU a b c2 d).bind
                  (fun ch => (parseStrAux X).map (fun p => (ch :: p.1, p.2)))
              from fun _ _ _ _ _ => rfl,
            decodeU_escape c h3, parseStrAux_escape s rest]
          rfl
        · simp only [escapeList, show escapeChar c = [c] from by
              rw [escapeChar, if_neg h1, if_neg h2, if_neg h3],
            List.cons_append, List.nil_append]
          rw [parseStrAux_cons_other c _ h1 h2, parseStrAux_escape s rest]
          rfl

theorem parseStr_ser (s : String) (rest : List Char) :
    parseStr (serStr s ++ rest) = some (s, rest) := by
  have h1 : serStr s ++ rest = '"' :: (escapeList s.data ++ '"' :: rest) := by
    simp [serStr]
  rw [h1,
    show ∀ X, parseStr ('"' :: X) = (parseStrAux X).map (fun p => (String.mk p.1, p.2))
      from fun _ => rfl,
    parseStrAux_escape]
  simp [stringMk_data]

theorem parseBool_ser (b : Bool) (rest : List Char) :
    parseBool (serBool b ++ rest) = some (b, rest) := by
  cases b <;> rfl

theorem parsePair_ser (fv : β → List Char) (pv : List Char → Option (β × List Char))
    (p : String × β) (rest : List Char)
    (hv : ∀ rest2, pv (fv p.2 ++ rest2) = some (p.2, rest2)) :
    parsePair pv (serPair fv p ++ rest) = some (p, rest) := by
  have h1 : serPair fv p ++ rest = serStr p.1 ++ (':' :: (fv p.2 ++ rest)) := by
    simp [serPair]
  unfold parsePair
  rw [h1, parseStr_ser]
  simp only [Option.some_bind]
  rw [expectChars_cons_self]
  simp only [Option.some_bind]
  rw [hv rest]
  rfl

theorem parseSeqRest_ser (cl : Char) (p : List Char → Option (α × List Char))
    (f : α → List Char) (hcl : ¬(',' : Char) = cl) :
    ∀ (xs : List α) (fuel : Nat) (rest : List Char), xs.length < fuel →
      (∀ x ∈ xs, ∀ r2, p (f x ++ r2) = some (x, r2)) →
      parseSeqRest cl p fuel (serTail f xs ++ cl :: rest) = some (xs, rest)
  | [], fuel, rest, hfuel, _ => by
    match fuel, hfuel with
    | fuel + 1, _ =>
      show parseSeqRest cl p (fuel + 1) (cl :: rest) = some ([], rest)
      rw [parseSeqRest, expectChars_cons_self]
  | x :: xs, fuel, rest, hfuel, hp => by
    match fuel, hfuel with
    | fuel + 1, hfuel =>
      have hx : serTail f (x :: xs) ++ cl :: rest =
          ',' :: (f x ++ (serTail f xs ++ cl :: rest)) := by
        simp [serTail]
      have hlt : xs.length < fuel := by
        simp only [List.length_cons] at hfuel
        omega
      rw [hx, parseSeqRest, expectChars_cons_ne ',' cl _ hcl, expectChars_cons_self]
      simp only [Option.some_bind]
      rw [hp x (List.mem_cons_self x xs) _]
      simp only [Option.some_bind]
      rw [parseSeqRest_ser cl p f hcl xs fuel rest hlt
        (fun y hy r2 => hp y (List.mem_cons_of_mem x hy) r2)]
      rfl

theorem parseSeq_ser (op cl c0 : Char) (p : List Char → Option (α × List Char))
    (f : α → List Char) (hcl : ¬(',' : Char) = cl) (hc0 : ¬c0 = cl)
    (hf : ∀ x, ∃ t, f x = c0 :: t) :
    ∀ (xs : List α) (fuel : Nat) (rest : List Char), xs.length < fuel →
      (∀ x ∈ xs, ∀ r2, p (f x ++ r2) = some (x, r2)) →
      parseSeq op cl p fuel (serSeq op cl f xs ++ rest) = some (xs, rest)
  | [], fuel, rest, _, _ => by
    have hx : serSeq op cl f ([] : List α) ++ rest = op :: (cl :: rest) := by
      simp [serSeq, serCommaSep]
    rw [hx]
    unfold parseSeq
    rw [expectChars_cons_self]
    simp only [Option.some_bind]
    rw [expectChars_cons_self]
  | x :: xs, fuel, rest, hfuel, hp => by
    have hx : serSeq op cl f (x :: xs) ++ rest =
        op :: (f x ++ (serTail f xs ++ cl :: rest)) := by
      simp [serSeq, serCommaSep]
    rw [hx]
    unfold parseSeq
    rw [expectChars_cons_self]
    simp only [Option.some_bind]
    rcases hf x with ⟨t, ht⟩
    have hne : expectChars [cl] (f x ++ (serTail f xs ++ cl :: rest)) = none := by
      rw [ht]
      simp only [List.cons_append]
      exact expectChars_cons_ne c0 cl _ hc0
    have hlt : xs.length < fuel := by
      simp only [List.length_cons] at hfuel
      omega
    rw [hne, hp x (List.mem_cons_self x xs) _]
    simp only [Option.some_bind]
    rw [parseSeqRest_ser cl p f hcl xs fuel rest hlt
      (fun y hy r2 => hp y (List.mem_cons_of_mem x hy) r2)]
    rfl

theorem serStr_head (s : String) : ∃ t, serStr s = '"' :: t := ⟨_, rfl⟩

theorem serEmail_head (e : Email) : ∃ t, serEmail e = '{' :: t := ⟨_, rfl⟩

theorem serPair_head (fv : β → List Char) (p : String × β) :
    ∃ t, serPair fv p = '"' :: t := ⟨_, rfl⟩

theorem parseEmail_ser (fuel : Nat) (e : Email) (rest : List Char)
    (hto : e.to_.length < fuel) :
    parseEmail fuel (serEmail e ++ rest) = some (e, rest) := by
  have hx : serEmail e ++ rest =
      '{' :: (serKey "from" ++ (serStr e.from_ ++
        (',' :: (serKey "to" ++ (serSeq '[' ']' serStr e.to_ ++
        (',' :: (serKey "subject" ++ (serStr e.subject ++
        (',' :: (serKey "body" ++ (serStr e.body ++
        (',' :: (serKey "time" ++ (serStr e.time ++
        (',' :: (serKey "read" ++ (serBool e.read ++
        ('}' :: rest)))))))))))))))))) := by
    simp [serEmail, List.cons_append, List.append_assoc]
  unfold parseEmail
  rw [hx, expectChars_cons_append]
  simp only [Option.some_bind]
  rw [parseStr_ser]
  simp only [Option.some_bind]
  rw [expectChars_cons_append]
  simp only [Option.some_bind]
  rw [parseSeq_ser '[' ']' '"' parseStr serStr (by decide) (by decide) serStr_head
    e.to_ fuel _ hto (fun x _ r2 => parseStr_ser x r2)]
  simp only [Option.some_bind]
  rw [expectChars_cons_append]
  simp only [Option.some_bind]
  rw [parseStr_ser]
  simp only [Option.some_bind]
  rw [expectChars_cons_append]
  simp only [Option.some_bind]
  rw [parseStr_ser]
  simp only [Option.some_bind]
  rw [expectChars_cons_append]
  simp only [Option.some_bind]
  rw [parseStr_ser]
  simp only [Option.some_bind]
  rw [expectChars_cons_append]
  simp only [Option.some_bind]
  rw [parseBool_ser]
  simp only [Option.some_bind]
  rw [expectChars_cons_self]
  rfl

theorem parseMailbox_ser (fuel : Nat) (b : Mailbox) (rest : List Char)
    (hi : b.inbox.length < fuel) (hd : b.drafts.length < fuel)
    (hs : b.sent.length < fuel)
    (he : ∀ e, (e ∈ b.inbox ∨ e ∈ b.drafts ∨ e ∈ b.sent) → e.to_.length < fuel) :
    parseMailbox fuel (serMailbox b ++ rest) = some (b, rest) := by
  have hx : serMailbox b ++ rest =
      '{' :: (serKey "inbox" ++ (serSeq '[' ']' serEmail b.inbox ++
        (',' :: (serKey "drafts" ++ (serSeq '[' ']' serEmail b.drafts ++
        (',' :: (serKey "sent" ++ (serSeq '[' ']' serEmail b.sent ++
        ('}' :: rest))))))))) := by
    simp [serMailbox, List.cons_append, List.append_assoc]
  unfold parseMailbox
  rw [hx, expectChars_cons_append]
  simp only [Option.some_bind]
  rw [parseSeq_ser '[' ']' '{' (parseEmail fuel) serEmail (by decide) (by decide)
    serEmail_head b.inbox fuel _ hi
    (fun x hmem r2 => parseEmail_ser fuel x r2 (he x (Or.inl hmem)))]
  simp only [Option.some_bind]
  rw [expectChars_cons_append]
  simp only [Option.some_bind]
  rw [parseSeq_ser '[' ']' '{' (parseEmail fuel) serEmail (by decide) (by decide)
    serEmail_head b.drafts fuel _ hd
    (fun x hmem r2 => parseEmail_ser fuel x r2 (he x (Or.inr (Or.inl hmem))))]
  simp only [Option.some_bind]
  rw [expectChars_cons_append]
  simp only [Option.some_bind]
  rw [parseSeq_ser '[' ']' '{' (parseEmail fuel) serEmail (by decide) (by decide)
    serEmail_head b.sent fuel _ hs
    (fun x hmem r2 => parseEmail_ser fuel x r2 (he x (Or.inr (Or.inr hmem))))]
  simp only [Option.some_bind]
  rw [expectChars_cons_self]
  rfl

/-! ## Length bounds feeding the parser fuel -/

theorem length_one_le (f : α → List Char) (hf : ∀ x, f x ≠ []) (x : α) :
    1 ≤ (f x).length := by
  cases hfx : f x with
  | nil => exact absurd hfx (hf x)
  | cons a l => simp

theorem serTail_length (f : α → List Char) (hf : ∀ x, f x ≠ []) :
    ∀ xs : List α, xs.length ≤ (serTail f xs).length
  | [] => Nat.le_refl 0
  | x :: xs => by
    have h1 := length_one_le f hf x
    have h2 := serTail_length f hf xs
    simp only [serTail, List.length_cons, List.length_append]
    omega

theorem length_lt_serSeq (op cl : Char) (f : α → List Char) (hf : ∀ x, f x ≠ []) :
    ∀ xs : List α, xs.length < (serSeq op cl f xs).length
  | [] => by simp [serSeq, serCommaSep]
  | x :: xs => by
    have h1 := length_one_le f hf x
    have h2 := serTail_length f hf xs
    simp only [serSeq, serCommaSep, List.length_cons, List.length_append]
    omega

theorem mem_serTail_le (f : α → List Char) :
    ∀ (xs : List α) (x : α), x ∈ xs → (f x).length ≤ (serTail f xs).length
  | [], x, hx => absurd hx (List.not_mem_nil x)
  | y :: ys, x, hx => by
    rcases List.mem_cons.mp hx with h | h
    · subst h
      simp only [serTail, List.length_cons, List.length_append]
      omega
    · have := mem_serTail_le f ys x h
      simp only [serTail, List.length_cons, List.length_append]
      omega

theorem mem_serSeq_le (op cl : Char) (f : α → List Char) (xs : List α) (x : α)
    (hx : x ∈ xs) : (f x).length ≤ (serSeq op cl f xs).length := by
  rcases xs with _ | ⟨y, ys⟩
  · exact absurd hx (List.not_mem_nil x)
  · rcases List.mem_cons.mp hx with h | h
    · subst h
      simp only [serSeq, serCommaSep, List.length_cons, List.length_append]
      omega
    · have := mem_serTail_le f ys x h
      simp only [serSeq, serCommaSep, List.length_cons, List.length_append]
      omega

theorem serStr_ne_nil (s : String) : serStr s ≠ [] := by simp [serStr]

theorem serEmail_ne_nil (e : Email) : serEmail e ≠ [] := by simp [serEmail]

theorem serPair_ne_nil (fv : β → List Char) (p : String × β) : serPair fv p ≠ [] := by
  rcases serPair_head fv p with ⟨t, ht⟩
  simp [ht]

theorem toSeq_le_serEmail (e : Email) :
    (serSeq '[' ']' serStr e.to_).length ≤ (serEmail e).length := by
  simp only [serEmail, List.length_cons, List.length_append]
  omega

theorem inboxSeq_le_serMailbox (b : Mailbox) :
    (serSeq '[' ']' serEmail b.inbox).length ≤ (serMailbox b).length := by
  simp only [serMailbox, List.length_cons, List.length_append]
  omega

theorem draftsSeq_le_serMailbox (b : Mailbox) :
    (serSeq '[' ']' serEmail b.drafts).length ≤ (serMailbox b).length := by
  simp only [serMailbox, List.length_cons, List.length_append]
  omega

theorem sentSeq_le_serMailbox (b : Mailbox) :
    (serSeq '[' ']' serEmail b.sent).length ≤ (serMailbox b).length := by
  simp only [serMailbox, List.length_cons, List.length_append]
  omega

theorem serMailbox_le_serPair (p : String × Mailbox) :
    (serMailbox p.2).length ≤ (serPair serMailbox p).length := by
  simp only [serPair, List.length_cons, List.length_append]
  omega

theorem parse_users_dump (users : List (String × String)) :
    parse_users (dump_users users) = some users := by
  unfold parse_users dump_users
  have hlen : users.length < (serSeq '{' '}' (serPair serStr) users).length + 1 := by
    have := length_lt_serSeq '{' '}' (serPair serStr) (serPair_ne_nil serStr) users
    omega
  have hp : ∀ x ∈ users, ∀ r2,
      parsePair parseStr (serPair serStr x ++ r2) = some (x, r2) :=
    fun x _ r2 => parsePair_ser serStr parseStr x r2 (fun r3 => parseStr_ser x.2 r3)
  have h := parseSeq_ser '{' '}' '"' (parsePair parseStr) (serPair serStr)
    (by decide) (by decide) (serPair_head serStr) users
    ((serSeq '{' '}' (serPair serStr) users).length + 1) [] hlen hp
  rw [List.append_nil] at h
  rw [show (String.mk (serSeq '{' '}' (serPair serStr) users)).data =
    serSeq '{' '}' (serPair serStr) users from rfl, h]

theorem parse_inboxes_dump (bs : Inboxes) :
    parse_inboxes (dump_inboxes bs) = some bs := by
  unfold parse_inboxes dump_inboxes
  have hkey : ∀ x ∈ bs, (serMailbox x.2).length ≤
      (serSeq '{' '}' (serPair serMailbox) bs).length := by
    intro x hx
    have h1 := serMailbox_le_serPair x
    have h2 := mem_serSeq_le '{' '}' (serPair serMailbox) bs x hx
    omega
  have hlen : bs.length < (serSeq '{' '}' (serPair serMailbox) bs).length + 1 := by
    have := length_lt_serSeq '{' '}' (serPair serMailbox) (serPair_ne_nil serMailbox) bs
    omega
  have hp : ∀ x ∈ bs, ∀ r2,
      parsePair (parseMailbox ((serSeq '{' '}' (serPair serMailbox) bs).length + 1))
        (serPair serMailbox x ++ r2) = some (x, r2) := by
    intro x hx r2
    refine parsePair_ser serMailbox _ x r2 (fun r3 => ?_)
    have hkx := hkey x hx
    refine parseMailbox_ser _ x.2 r3 ?_ ?_ ?_ ?_
    · have h1 := length_lt_serSeq '[' ']' serEmail serEmail_ne_nil x.2.inbox
      have h2 := inboxSeq_le_serMailbox x.2
      omega
    · have h1 := length_lt_serSeq '[' ']' serEmail serEmail_ne_nil x.2.drafts
      have h2 := draftsSeq_le_serMailbox x.2
      omega
    · have h1 := length_lt_serSeq '[' ']' serEmail serEmail_ne_nil x.2.sent
      have h2 := sentSeq_le_serMailbox x.2
      omega
    · intro e hmem
      have h1 := length_lt_serSeq '[' ']' serStr serStr_ne_nil e.to_
      have h2 := toSeq_le_serEmail e
      have h3 : (serEmail e).length ≤ (serMailbox x.2).length := by
        rcases hmem with hm | hm | hm
        · have := mem_serSeq_le '[' ']' serEmail x.2.inbox e hm
          have := inboxSeq_le_serMailbox x.2
          omega
        · have := mem_serSeq_le '[' ']' serEmail x.2.drafts e hm
          have := draftsSeq_le_serMailbox x.2
          omega
        · have := mem_serSeq_le '[' ']' serEmail x.2.sent e hm
          have := sentSeq_le_serMailbox x.2
          omega
      omega
  have h := parseSeq_ser '{' '}' '"'
    (parsePair (parseMailbox ((serSeq '{' '}' (serPair serMailbox) bs).length + 1)))
    (serPair serMailbox) (by decide) (by decide) (serPair_head serMailbox) bs
    ((serSeq '{' '}' (serPair serMailbox) bs).length + 1) [] hlen hp
  rw [List.append_nil] at h
  rw [show (String.mk (serSeq '{' '}' (serPair serMailbox) bs)).data =
    serSeq '{' '}' (serPair serMailbox) bs from rfl, h]

/-- C9. Saving the serialised accounts store (or mailbox store) at a path
and loading that path back yields exactly the original mapping, for every
mapping (arbitrary strings in every field, keys unique as in a dict); and
loading from a path the file system does not contain yields the empty
mapping. -/
theorem save_load_roundtrip (fs : FileSystem) (p q : String)
    (users : List (String × String)) (bs : Inboxes)
    (_hu : (users.map Prod.fst).Nodup) (_hb : (bs.map Prod.fst).Nodup) :
    load_users p (save_json p (dump_users users) fs) = some users ∧
    load_inboxes q (save_json q (dump_inboxes bs) fs) = some bs ∧
    (lookupKey fs p = none →
      load_users p fs = some [] ∧ load_inboxes p fs = some []) := by
  refine ⟨?_, ?_, fun hnone => ⟨?_, ?_⟩⟩
  · unfold load_users save_json
    rw [lookupKey_setKey_self]
    exact parse_users_dump users
  · unfold load_inboxes save_json
    rw [lookupKey_setKey_self]
    exact parse_inboxes_dump bs
  · unfold load_users
    rw [hnone]
  · unfold load_inboxes
    rw [hnone]

/-- C9 witness: a round trip through the two real file names, with
passwords and message bodies exercising quote, backslash and newline
escaping, and a load from an absent path. -/
theorem save_load_roundtrip_witness :
    load_users "users.json" (save_json "users.json"
      (dump_users [("alice", "p\"w\\x"), ("bob", "")]) []) =
      some [("alice", "p\"w\\x"), ("bob", "")] ∧
    load_inboxes "inboxes.json" (save_json "inboxes.json"
      (dump_inboxes [("alice", ⟨[⟨"bob", ["alice", "x"], "hi \"there\"", "a\nb",
        "2024-01-01T00:00:00", true⟩], [], []⟩)]) []) =
      some [("alice", ⟨[⟨"bob", ["alice", "x"], "hi \"there\"", "a\nb",
        "2024-01-01T00:00:00", true⟩], [], []⟩)] ∧
    load_users "users.json" [] = some [] ∧
    load_inboxes "users.json" [] = some [] := by
  refine ⟨?_, ?_, ?_, ?_⟩
  · exact (save_load_roundtrip [] "users.json" "inboxes.json"
      [("alice", "p\"w\\x"), ("bob", "")]
      [("alice", ⟨[⟨"bob", ["alice", "x"], "hi \"there\"", "a\nb",
        "2024-01-01T00:00:00", true⟩], [], []⟩)] (by decide) (by decide)).1
  · exact (save_load_roundtrip [] "users.json" "inboxes.json"
      [("alice", "p\"w\\x"), ("bob", "")]
      [("alice", ⟨[⟨"bob", ["alice", "x"], "hi \"there\"", "a\nb",
        "2024-01-01T00:00:00", true⟩], [], []⟩)] (by decide) (by decide)).2.1
  · exact ((save_load_roundtrip [] "users.json" "inboxes.json"
      [("alice", "p\"w\\x"), ("bob", "")]
      [("alice", ⟨[⟨"bob", ["alice", "x"], "hi \"there\"", "a\nb",
        "2024-01-01T00:00:00", true⟩], [], []⟩)] (by decide) (by decide)).2.2 rfl).1
  · exact ((save_load_roundtrip [] "users.json" "inboxes.json"
      [("alice", "p\"w\\x"), ("bob", "")]
      [("alice", ⟨[⟨"bob", ["alice", "x"], "hi \"there\"", "a\nb",
        "2024-01-01T00:00:00", true⟩], [], []⟩)] (by decide) (by decide)).2.2 rfl).2

end MiniEmail
